import Mathlib

/-!
Verification development for the structure-from-motion smart-factor kernel
`SmartFactorBase<POSE, CALIBRATION, D>` (file `gtsam_unstable/slam/SmartFactorBase.h`).

The kernel is embedded shallowly over `ℚ`:

* machine doubles become exact rationals (the claims under study are algebraic
  block-structure facts, not rounding facts);
* the external pinhole camera, the noise models and the SVD routine are consumed
  interfaces (spec §6); they are modelled as parameters: a camera is a projection
  function returning the predicted pixel together with the Jacobian blocks or a
  cheirality signal, a noise model is its 2×2 whitening operator `W = Σ^{-1/2}`,
  the SVD routine is an oracle returning the full `U` factor;
* every stacked `2m × n` matrix is indexed by `Fin m × Fin 2`: the pair `(i, r)`
  is the stacked row `2*i + r` of the source;
* the per-measurement `for` loops become `foldlM` over `List.finRange m` in the
  `Except` monad, where `Except.error` models the reference behavior on a
  cheirality exception (the process terminates);
* `std::vector::at` bounds failures in the measurement-set operations are
  modelled as `Except.error` carrying the partially mutated factor.

The template dimension `D` is `6 + c` with `c` calibration parameters.
All definitions are executable so that witnesses evaluate by `decide`.
-/

namespace SmartFactor

open Matrix

/-- Camera keys (`Key` is an opaque identifier in the host library). -/
abbrev Key := ℕ

/-- Dense column vectors of a fixed dimension. -/
abbrev Vec (n : ℕ) := Fin n → ℚ

/-- Squared Euclidean norm of a 2-vector (Eigen `squaredNorm`). -/
def sqNorm2 (v : Vec 2) : ℚ := ∑ r : Fin 2, v r * v r

/-- Cheirality failure signal: the 3D point is behind (or on the plane of) a camera.
The reference implementation prints and calls `exit(EXIT_FAILURE)`; the embedding
carries the signal as the `Except.error` outcome of the call. -/
structure Cheirality where
  mk' ::
  deriving DecidableEq

instance {ε α : Type} [DecidableEq ε] [DecidableEq α] : DecidableEq (Except ε α) :=
  fun a b =>
    match a, b with
    | Except.ok x, Except.ok y => decidable_of_iff (x = y) (by simp)
    | Except.error e, Except.error f => decidable_of_iff (e = f) (by simp)
    | Except.ok _, Except.error _ => isFalse (by simp)
    | Except.error _, Except.ok _ => isFalse (by simp)

/-- Horizontal concatenation of the 2×6 pose block and the 2×c calibration block into
the 2×D camera block, as in `Hcam.block<2,6>(0,0) = Fi; Hcam.block<2,D-6>(0,6) = Hcali`.
For `c = 0` this is the `D == 6` branch of the source, which pushes `Fi` directly
(lemma `hcat_zero`). -/
def hcat {c : ℕ} (A : Matrix (Fin 2) (Fin 6) ℚ) (B : Matrix (Fin 2) (Fin c) ℚ) :
    Matrix (Fin 2) (Fin (6 + c)) ℚ :=
  Matrix.of fun r j =>
    if h : (j : ℕ) < 6 then A r ⟨j, h⟩ else B r ⟨(j : ℕ) - 6, by have := j.isLt; omega⟩

/-- Overwrite of one matrix entry, modelling an assignment `M(i, j) = v`. -/
def setEntry {n p : ℕ} (M : Matrix (Fin n) (Fin p) ℚ) (i : Fin n) (j : Fin p) (v : ℚ) :
    Matrix (Fin n) (Fin p) ℚ :=
  Matrix.of fun a b => if a = i ∧ b = j then v else M a b

/-- Executable 3×3 matrix inverse (Eigen `.inverse()` on a fixed-size matrix computes
the adjugate-over-determinant formula); it agrees with Mathlib's `Matrix.inv`
(lemma `inv3_eq_inv`). -/
def inv3 (A : Matrix (Fin 3) (Fin 3) ℚ) : Matrix (Fin 3) (Fin 3) ℚ := A.det⁻¹ • A.adjugate

/-- Rigid 3D transform (rotation and translation), the `POSE` for `body_P_sensor`. -/
structure Pose3 where
  R : Matrix (Fin 3) (Fin 3) ℚ
  t : Vec 3
  deriving DecidableEq

/-- Pose composition `T1 * T2`: rotations compose, translation is `R1 t2 + t1`. -/
def Pose3.compose (p q : Pose3) : Pose3 := ⟨p.R * q.R, p.R.mulVec q.t + p.t⟩

/-- The identity pose. -/
def Pose3.id : Pose3 := ⟨1, fun _ => 0⟩

/-- Output of one projection call: predicted pixel, the 2×6 Jacobian in the camera
pose, the 2×3 Jacobian in the point, and the 2×c Jacobian in the calibration. -/
structure ProjOut (c : ℕ) where
  pix : Vec 2
  Fc : Matrix (Fin 2) (Fin 6) ℚ
  Ep : Matrix (Fin 2) (Fin 3) ℚ
  Hcal : Matrix (Fin 2) (Fin c) ℚ
  deriving DecidableEq

/-- Modelled from the spec (§6 consumed interfaces): the external pinhole camera is
consumed through `project(point, outF?, outE?, outH_cal?) → pixel` with a cheirality
failure signal; it is external to `src/`, so a camera is its projection function. -/
structure Camera (c : ℕ) where
  project : Vec 3 → Except Cheirality (ProjOut c)

/-- Modelled from the spec (§4.2, §7): concrete pose-only pinhole projection with
identity calibration — transform the world point into the camera frame
`q = Rᵀ (p − t)` and project `(q₀/q₂, q₁/q₂)`, failing on cheirality when the point
is not strictly in front of the camera. -/
def pinholeProject (pose : Pose3) (p : Vec 3) : Except Cheirality (Vec 2) :=
  let q := pose.R.transpose.mulVec (p - pose.t)
  if q 2 ≤ 0 then Except.error ⟨⟩ else Except.ok fun r => q r.castSucc / q 2

/-- A concrete camera built from a pose alone. The Jacobian slots are not consumed by
`reprojectionError` or `totalReprojectionError`, and are filled with zeros. -/
def poseCamera (c : ℕ) (pose : Pose3) : Camera c :=
  ⟨fun p => (pinholeProject pose p).map fun px => ⟨px, 0, 0, 0⟩⟩

/-- Modelled from the spec (glossary, §4.3c): a noise model is consumed through its
whitening operator `W = Σ^{-1/2}`; `WhitenSystem` left-multiplies each row block of
`[F | E | Hcal | b]` by the same `W`. -/
abbrev NoiseModel := Matrix (Fin 2) (Fin 2) ℚ

/-- Modelled from the spec (§4.3, utility outputs): `noise->distance(v)` is the
squared norm of the whitened vector. -/
def noiseDistance (W : NoiseModel) (v : Vec 2) : ℚ := sqNorm2 (W.mulVec v)

/-- The factor state: parallel arrays `measured_`, `noise_`, `keys_` and the optional
sensor offset `body_P_sensor_`. -/
structure SmartFactorBase (c : ℕ) where
  measured : List (Vec 2)
  noise : List NoiseModel
  keys : List Key
  body_P_sensor : Option Pose3
  deriving DecidableEq

variable {c : ℕ}

/-- Single append `add(measured_i, poseKey_i, noise_i)`: pushes in lockstep to the
three parallel arrays. -/
def SmartFactorBase.add (s : SmartFactorBase c) (z : Vec 2) (k : Key) (n : NoiseModel) :
    SmartFactorBase c :=
  ⟨s.measured ++ [z], s.noise ++ [n], s.keys ++ [k], s.body_P_sensor⟩

/-- One iteration of the batch `add(measurements, poseKeys, noises)` loop. The source
indexes all three arrays with `.at(i)` for `i` below `measurements.size()`, pushing
`measured_`, then `keys_`, then `noise_`; an out-of-range `.at` throws, aborting the
loop with the factor left partially extended (the `error` value carries that state). -/
def addBatchStep (zs : List (Vec 2)) (ks : List Key) (ns : List NoiseModel)
    (s : SmartFactorBase c) (i : ℕ) : Except (SmartFactorBase c) (SmartFactorBase c) :=
  match zs[i]? with
  | none => Except.error s
  | some z =>
    let s1 : SmartFactorBase c := ⟨s.measured ++ [z], s.noise, s.keys, s.body_P_sensor⟩
    match ks[i]? with
    | none => Except.error s1
    | some k =>
      let s2 : SmartFactorBase c := ⟨s1.measured, s1.noise, s1.keys ++ [k], s1.body_P_sensor⟩
      match ns[i]? with
      | none => Except.error s2
      | some n => Except.ok ⟨s2.measured, s2.noise ++ [n], s2.keys, s2.body_P_sensor⟩

/-- Batch append `add(measurements, poseKeys, noises)` (per-measurement noises). -/
def SmartFactorBase.addBatch (s : SmartFactorBase c) (zs : List (Vec 2)) (ks : List Key)
    (ns : List NoiseModel) : Except (SmartFactorBase c) (SmartFactorBase c) :=
  (List.range zs.length).foldlM (addBatchStep zs ks ns) s

/-- One iteration of the batch `add(measurements, poseKeys, noise)` loop (one shared
noise model, never out of range). -/
def addBatchSharedStep (zs : List (Vec 2)) (ks : List Key) (n : NoiseModel)
    (s : SmartFactorBase c) (i : ℕ) : Except (SmartFactorBase c) (SmartFactorBase c) :=
  match zs[i]? with
  | none => Except.error s
  | some z =>
    let s1 : SmartFactorBase c := ⟨s.measured ++ [z], s.noise, s.keys, s.body_P_sensor⟩
    match ks[i]? with
    | none => Except.error s1
    | some k => Except.ok ⟨s1.measured, s1.noise ++ [n], s1.keys ++ [k], s1.body_P_sensor⟩

/-- Batch append `add(measurements, poseKeys, noise)` with one shared noise model. -/
def SmartFactorBase.addBatchShared (s : SmartFactorBase c) (zs : List (Vec 2))
    (ks : List Key) (n : NoiseModel) : Except (SmartFactorBase c) (SmartFactorBase c) :=
  (List.range zs.length).foldlM (addBatchSharedStep zs ks n) s

/-- Modelled from the spec (external `Point2::equals`): componentwise absolute
difference strictly below `tol`. -/
def point2Equals (p q : Vec 2) (tol : ℚ) : Bool :=
  decide (|p 0 - q 0| < tol) && decide (|p 1 - q 1| < tol)

/-- Modelled from the spec (external `Pose3::equals`): entrywise comparison of
rotation and translation with absolute tolerance. -/
def pose3Equals (a b : Pose3) (tol : ℚ) : Bool :=
  decide (∀ i j, |a.R i j - b.R i j| < tol) && decide (∀ i, |a.t i - b.t i| < tol)

/-- The default tolerance `1e-9` used by `equals` when comparing the sensor poses. -/
def defaultTol : ℚ := 1 / 1000000000

/-- The `equals` member. The measurement loop carries an unconditional `break`, so at
most the first measurement is compared; `e->measured_.at(0)` may throw when the other
factor has no measurements (the `error` case). The base-class comparison is modelled
from the spec as equality of the key arrays, and the sensor offsets are compared as
in the source: both absent, or both present and equal at the default tolerance. -/
def SmartFactorBase.equalsImpl (s other : SmartFactorBase c) (tol : ℚ) : Except Unit Bool :=
  (match s.measured with
   | [] => Except.ok true
   | z0 :: _ =>
     match other.measured[0]? with
     | none => Except.error ()
     | some w0 => Except.ok (point2Equals z0 w0 tol)).map
    fun areMeasurementsEqual =>
      (decide (s.keys = other.keys) && areMeasurementsEqual) &&
        (match s.body_P_sensor, other.body_P_sensor with
         | none, none => true
         | some a, some b => pose3Equals a b defaultTol
         | _, _ => false)

/-- Length-consistent view of a factor during linearization (spec §3 invariants: the
three parallel arrays have the same length `m` and the camera set matches the
measurement order), represented as functions on `Fin m`. `bps` carries
`body_P_sensor_`, which the linearization members of the source never read. -/
structure FactorView (m c : ℕ) where
  z : Fin m → Vec 2
  W : Fin m → NoiseModel
  ks : Fin m → Key
  bps : Option Pose3

variable {m : ℕ}

/-- Replace the stored sensor offset of a view. -/
def setBps (fv : FactorView m c) (p : Option Pose3) : FactorView m c := ⟨fv.z, fv.W, fv.ks, p⟩

/-- The shared projection call `cameras[i].project(point, ...)`. -/
def projOf (cams : Fin m → Camera c) (p : Vec 3) : Fin m → Except Cheirality (ProjOut c) :=
  fun i => (cams i).project p

/-- One iteration of a per-measurement loop of the source: a cheirality exception
aborts the whole call (the reference exits the process), otherwise the loop state is
updated from the projection output. -/
def genStep {σ : Type} (proj : Fin m → Except Cheirality (ProjOut c))
    (upd : Fin m → ProjOut c → σ → σ) (s : σ) (i : Fin m) : Except Cheirality σ :=
  match proj i with
  | Except.error e => Except.error e
  | Except.ok t => Except.ok (upd i t s)

/-- Projection output extractor with a zero default; meaningful under a no-cheirality
hypothesis. -/
def projD (proj : Fin m → Except Cheirality (ProjOut c)) (i : Fin m) : ProjOut c :=
  match proj i with
  | Except.ok t => t
  | Except.error _ => ⟨fun _ => 0, 0, 0, 0⟩

/-- The projection output used at measurement `i`. -/
def projAt (cams : Fin m → Camera c) (p : Vec 3) (i : Fin m) : ProjOut c :=
  projD (projOf cams p) i

/-- Loop body of `reprojectionError`: rows `2i, 2i+1` of `b` receive the raw,
unwhitened residual `camera.project(point) − z_i`. -/
def reprojUpd (fv : FactorView m c) (i : Fin m) (t : ProjOut c)
    (b : (Fin m × Fin 2) → ℚ) : (Fin m × Fin 2) → ℚ :=
  fun rc => if rc.1 = i then t.pix rc.2 - fv.z i rc.2 else b rc

/-- `reprojectionError(cameras, point)`: the stacked unwhitened residual vector. -/
def reprojectionError (fv : FactorView m c) (cams : Fin m → Camera c) (p : Vec 3) :
    Except Cheirality ((Fin m × Fin 2) → ℚ) :=
  (List.finRange m).foldlM (genStep (projOf cams p) (reprojUpd fv)) fun _ => 0

/-- Loop body of `totalReprojectionError`:
`overallError += 0.5 * noise.at(i)->distance(project(point) − z_i)`. -/
def totalErrUpd (fv : FactorView m c) (i : Fin m) (t : ProjOut c) (acc : ℚ) : ℚ :=
  acc + 1 / 2 * noiseDistance (fv.W i) fun r => t.pix r - fv.z i r

/-- `totalReprojectionError(cameras, point)`: half the total squared whitened error. -/
def totalReprojectionError (fv : FactorView m c) (cams : Fin m → Camera c) (p : Vec 3) :
    Except Cheirality ℚ :=
  (List.finRange m).foldlM (genStep (projOf cams p) (totalErrUpd fv)) 0

/-- Loop body of `computeEP`: the point Jacobian is whitened and stored in rows
`2i, 2i+1` of `E`. (The local vector `b` of the source stays zero and is never
consumed, so it is not part of the state.) -/
def epUpd (fv : FactorView m c) (i : Fin m) (t : ProjOut c)
    (E : Matrix (Fin m × Fin 2) (Fin 3) ℚ) : Matrix (Fin m × Fin 2) (Fin 3) ℚ :=
  Matrix.of fun rc => if rc.1 = i then (fv.W i * t.Ep) rc.2 else E rc

/-- `computeEP(E, PointCov, cameras, point)`: assembles the whitened `E` and returns
`PointCov = (EᵀE)⁻¹`. -/
def computeEP (fv : FactorView m c) (cams : Fin m → Camera c) (p : Vec 3) :
    Except Cheirality (Matrix (Fin m × Fin 2) (Fin 3) ℚ × Matrix (Fin 3) (Fin 3) ℚ) :=
  ((List.finRange m).foldlM (genStep (projOf cams p) (epUpd fv)) (Matrix.of fun _ _ => 0)).map
    fun E => (E, inv3 (Eᵀ * E))

/-- State of the `computeJacobians` assembly loop: the F-blocks pushed so far, the
stacked whitened `E`, the stacked whitened negated residual `b`, and the running
total squared error `f`. -/
structure JacState (m c : ℕ) where
  Fblocks : List (Key × Matrix (Fin 2) (Fin (6 + c)) ℚ)
  E : Matrix (Fin m × Fin 2) (Fin 3) ℚ
  b : (Fin m × Fin 2) → ℚ
  f : ℚ
  deriving DecidableEq

/-- Loop body of the base `computeJacobians`: project, form `bi = −(π − z_i)`, whiten
`[F | E | Hcal | b]` jointly by `W_i`, accumulate `f += ‖bi‖²`, push the camera block
`(key_i, [Fi | Hcali])`, and store `Ei` and `bi` in rows `2i, 2i+1`. -/
def jacUpd (fv : FactorView m c) (i : Fin m) (t : ProjOut c) (s : JacState m c) :
    JacState m c :=
  let bi : Vec 2 := fun r => -(t.pix r - fv.z i r)
  let Fi := fv.W i * t.Fc
  let Ei := fv.W i * t.Ep
  let Hcali := fv.W i * t.Hcal
  let biw := (fv.W i).mulVec bi
  ⟨s.Fblocks ++ [(fv.ks i, hcat Fi Hcali)],
   Matrix.of fun rc => if rc.1 = i then Ei rc.2 else s.E rc,
   fun rc => if rc.1 = i then biw rc.2 else s.b rc,
   s.f + sqNorm2 biw⟩

/-- The base `computeJacobians(Fblocks, E, b, cameras, point)`, returning the full
assembly state with `f` as the function's return value. -/
def computeJacobians (fv : FactorView m c) (cams : Fin m → Camera c) (p : Vec 3) :
    Except Cheirality (JacState m c) :=
  (List.finRange m).foldlM (genStep (projOf cams p) (jacUpd fv))
    ⟨[], Matrix.of fun _ _ => 0, fun _ => 0, 0⟩

/-- The damping matrix of the PointCov-returning `computeJacobians`: `eye(3)`, whose
three diagonal entries are overwritten with those of `EᵀE` when `diagonalDamping`. -/
def dampingMatrix (EtE : Matrix (Fin 3) (Fin 3) ℚ) (diagonalDamping : Bool) :
    Matrix (Fin 3) (Fin 3) ℚ :=
  if diagonalDamping then
    setEntry (setEntry (setEntry 1 0 0 (EtE 0 0)) 1 1 (EtE 1 1)) 2 2 (EtE 2 2)
  else 1

/-- The PointCov-returning `computeJacobians(Fblocks, E, PointCov, b, cameras, point,
lambda, diagonalDamping)`: runs the base version, then
`PointCov = (EᵀE + lambda * DMatrix)⁻¹`. -/
def computeJacobiansPointCov (fv : FactorView m c) (cams : Fin m → Camera c) (p : Vec 3)
    (lam : ℚ) (diagonalDamping : Bool) :
    Except Cheirality (JacState m c × Matrix (Fin 3) (Fin 3) ℚ) :=
  (computeJacobians fv cams p).map fun s =>
    (s, inv3 (s.Eᵀ * s.E + lam • dampingMatrix (s.Eᵀ * s.E) diagonalDamping))

/-- Type of the external full-`U` SVD routine (Eigen `JacobiSVD` with `ComputeFullU`);
it is consumed as an oracle and constrained by the SVD contract in the theorems. -/
abbrev SvdFullU (m : ℕ) :=
  Matrix (Fin m × Fin 2) (Fin 3) ℚ → Matrix (Fin m × Fin 2) (Fin (2 * m)) ℚ

/-- The block `svd.matrixU().block(0, 3, 2*numKeys, 2*numKeys − 3)`: the last
`2m − 3` columns of `U`. -/
def enullOf (U : Matrix (Fin m × Fin 2) (Fin (2 * m)) ℚ) :
    Matrix (Fin m × Fin 2) (Fin (2 * m - 3)) ℚ :=
  Matrix.of fun rc j => U rc ⟨3 + (j : ℕ), by have := j.isLt; omega⟩

/-- Output of `computeJacobiansSVD`: F-blocks, the null-space basis `Enull`, the
whitened `b`, and the returned `f`. -/
structure SvdResult (m c : ℕ) where
  Fblocks : List (Key × Matrix (Fin 2) (Fin (6 + c)) ℚ)
  Enull : Matrix (Fin m × Fin 2) (Fin (2 * m - 3)) ℚ
  b : (Fin m × Fin 2) → ℚ
  f : ℚ
  deriving DecidableEq

/-- `computeJacobiansSVD(Fblocks, Enull, b, cameras, point, lambda, diagonalDamping)`:
runs the PointCov-returning `computeJacobians`, discards `PointCov`, and keeps the
last `2m − 3` columns of `U` from the SVD of the whitened `E`. -/
def computeJacobiansSVD (svdU : SvdFullU m) (fv : FactorView m c)
    (cams : Fin m → Camera c) (p : Vec 3) (lam : ℚ) (diagonalDamping : Bool) :
    Except Cheirality (SvdResult m c) :=
  (computeJacobiansPointCov fv cams p lam diagonalDamping).map fun sp =>
    ⟨sp.1.Fblocks, enullOf (svdU sp.1.E), sp.1.b, sp.1.f⟩

variable {D : ℕ}

/-- The full `F` of the dense strategy: `F.block<2,D>(2*i, D*i) = Fblocks.at(i).second`,
zero elsewhere. -/
def buildF (Fb : Fin m → Matrix (Fin 2) (Fin D) ℚ) :
    Matrix (Fin m × Fin 2) (Fin m × Fin D) ℚ :=
  Matrix.of fun rc jd => if rc.1 = jd.1 then Fb rc.1 rc.2 jd.2 else 0

/-- The row block `E.block<2,3>(2*i, 0)`. -/
def eBlock (E : Matrix (Fin m × Fin 2) (Fin 3) ℚ) (i : Fin m) : Matrix (Fin 2) (Fin 3) ℚ :=
  Matrix.of fun r col => E (i, r) col

/-- The segment `b.segment<2>(2*i)`. -/
def bSeg (b : (Fin m × Fin 2) → ℚ) (i : Fin m) : Vec 2 := fun r => b (i, r)

/-- `E_invEtE_Et = E.block<2,3>(2*i1,0) * PointCov * E.block<2,3>(2*i2,0)ᵀ`. -/
def ePE (E : Matrix (Fin m × Fin 2) (Fin 3) ℚ) (P : Matrix (Fin 3) (Fin 3) ℚ)
    (i1 i2 : Fin m) : Matrix (Fin 2) (Fin 2) ℚ :=
  eBlock E i1 * P * (eBlock E i2)ᵀ

/-- Hessian block written by the sparse loop: `Fi1ᵀ (Fi1 − E_invEtE_Et Fi2)` on the
diagonal and `−Fi1ᵀ (E_invEtE_Et Fi2)` off the diagonal. -/
def schurGBlock (Fb : Fin m → Matrix (Fin 2) (Fin D) ℚ)
    (E : Matrix (Fin m × Fin 2) (Fin 3) ℚ) (P : Matrix (Fin 3) (Fin 3) ℚ)
    (i1 i2 : Fin m) : Matrix (Fin D) (Fin D) ℚ :=
  if i1 = i2 then (Fb i1)ᵀ * (Fb i1 - ePE E P i1 i2 * Fb i2)
  else -((Fb i1)ᵀ * (ePE E P i1 i2 * Fb i2))

/-- Gradient block of the sparse loop:
`gs[i1] = Fi1ᵀ b_{i1} − Σ_{i2} Fi1ᵀ ((E_{i1} Q E_{i2}ᵀ) b_{i2})`. -/
def schurGrad (Fb : Fin m → Matrix (Fin 2) (Fin D) ℚ)
    (E : Matrix (Fin m × Fin 2) (Fin 3) ℚ) (P : Matrix (Fin 3) (Fin 3) ℚ)
    (b : (Fin m × Fin 2) → ℚ) (i1 : Fin m) : Vec D :=
  (Fb i1)ᵀ.mulVec (bSeg b i1) -
    ∑ i2 : Fin m, (Fb i1)ᵀ.mulVec ((ePE E P i1 i2).mulVec (bSeg b i2))

/-- `sparseSchurComplement(Fblocks, E, PointCov, b, Gs, gs)`: blockwise assembly; for
each `i1` the inner loop appends the diagonal block at `i2 = i1` and the off-diagonal
blocks for `i2 > i1`, in increasing `i2` order. -/
def sparseSchurComplement (Fb : Fin m → Key × Matrix (Fin 2) (Fin D) ℚ)
    (E : Matrix (Fin m × Fin 2) (Fin 3) ℚ) (P : Matrix (Fin 3) (Fin 3) ℚ)
    (b : (Fin m × Fin 2) → ℚ) :
    List (Matrix (Fin D) (Fin D) ℚ) × List (Vec D) :=
  ((List.finRange m).flatMap fun i1 =>
      ((List.finRange m).filter fun i2 => i1 ≤ i2).map fun i2 =>
        schurGBlock (fun j => (Fb j).2) E P i1 i2,
   (List.finRange m).map fun i1 => schurGrad (fun j => (Fb j).2) E P b i1)

/-- `schurComplement(Fblocks, E, PointCov, b, Gs, gs)`: the dense strategy. It
materializes the full `F`, computes `H = Fᵀ (F − E (PointCov (Eᵀ F)))` and
`gs = Fᵀ (b − E (PointCov (Eᵀ b)))`, and copies out the blocks with `i2 ≥ i1` in the
same order as the sparse loop. -/
def schurComplement (Fb : Fin m → Key × Matrix (Fin 2) (Fin D) ℚ)
    (E : Matrix (Fin m × Fin 2) (Fin 3) ℚ) (P : Matrix (Fin 3) (Fin 3) ℚ)
    (b : (Fin m × Fin 2) → ℚ) :
    List (Matrix (Fin D) (Fin D) ℚ) × List (Vec D) :=
  let F := buildF fun j => (Fb j).2
  let H := Fᵀ * (F - E * (P * (Eᵀ * F)))
  let gsVector := Fᵀ.mulVec (b - E.mulVec (P.mulVec (Eᵀ.mulVec b)))
  ((List.finRange m).flatMap fun i1 =>
      ((List.finRange m).filter fun i2 => i1 ≤ i2).map fun i2 =>
        Matrix.of fun a b' => H (i1, a) (i2, b'),
   (List.finRange m).map fun i1 => fun a => gsVector (i1, a))

/-- The linearized product handed to the optimizer:
`RegularHessianFactor<D>(keys, Gs, gs, f)`. -/
structure RegularHessianFactor (D : ℕ) where
  keys : List Key
  Gs : List (Matrix (Fin D) (Fin D) ℚ)
  gs : List (Fin D → ℚ)
  f : ℚ
  deriving DecidableEq

/-- `createHessianFactor(cameras, point, lambda, diagonalDamping)`: linearize via the
PointCov-returning `computeJacobians`, reduce with `sparseSchurComplement`, and hand
`(keys, Gs, gs, f)` to the optimizer. -/
def createHessianFactor (fv : FactorView m c) (cams : Fin m → Camera c) (p : Vec 3)
    (lam : ℚ) (diagonalDamping : Bool) :
    Except Cheirality (RegularHessianFactor (6 + c)) :=
  (computeJacobiansPointCov fv cams p lam diagonalDamping).map fun sp =>
    let Fb : Fin m → Key × Matrix (Fin 2) (Fin (6 + c)) ℚ :=
      fun i => sp.1.Fblocks.getD i (0, 0)
    let Gg := sparseSchurComplement Fb sp.1.E sp.2 sp.1.b
    ⟨(List.finRange m).map fv.ks, Gg.1, Gg.2, sp.1.f⟩

/-- Start position of the blocks of row `i1` inside the packed upper-triangle list
`{G_{0,0}, G_{0,1}, …, G_{0,m−1}, G_{1,1}, …}`. -/
def triOffset (m i1 : ℕ) : ℕ := ∑ j ∈ Finset.range i1, (m - j)

/-- The whitened negated residual of measurement `i`: `W_i · (−(π_i − z_i))`. -/
def whitenedResidual (fv : FactorView m c) (cams : Fin m → Camera c) (p : Vec 3)
    (i : Fin m) : Vec 2 :=
  (fv.W i).mulVec fun r => -((projAt cams p i).pix r - fv.z i r)

/-- The camera block pushed for measurement `i`: `(key_i, [W_i F_i | W_i Hcal_i])`. -/
def fBlockAt (fv : FactorView m c) (cams : Fin m → Camera c) (p : Vec 3) (i : Fin m) :
    Key × Matrix (Fin 2) (Fin (6 + c)) ℚ :=
  (fv.ks i, hcat (fv.W i * (projAt cams p i).Fc) (fv.W i * (projAt cams p i).Hcal))

/-- The whitened point-Jacobian rows of measurement `i`: `W_i E_i`. -/
def eRowsAt (fv : FactorView m c) (cams : Fin m → Camera c) (p : Vec 3) (i : Fin m) :
    Matrix (Fin 2) (Fin 3) ℚ :=
  fv.W i * (projAt cams p i).Ep

/-- The assembled whitened `E` (rows `2i, 2i+1` hold `W_i E_i`). -/
def eStacked (fv : FactorView m c) (cams : Fin m → Camera c) (p : Vec 3) :
    Matrix (Fin m × Fin 2) (Fin 3) ℚ :=
  Matrix.of fun rc => eRowsAt fv cams p rc.1 rc.2

/-- The assembled whitened right-hand side (rows `2i, 2i+1` hold `W_i (−(π_i − z_i))`). -/
def bStacked (fv : FactorView m c) (cams : Fin m → Camera c) (p : Vec 3) :
    (Fin m × Fin 2) → ℚ :=
  fun rc => whitenedResidual fv cams p rc.1 rc.2

/-- The total squared whitened error accumulated by the assembly loop. -/
def fTotal (fv : FactorView m c) (cams : Fin m → Camera c) (p : Vec 3) : ℚ :=
  ∑ i : Fin m, sqNorm2 (whitenedResidual fv cams p i)

/-- The assembly state produced by a successful run of the base `computeJacobians`. -/
def jacResult (fv : FactorView m c) (cams : Fin m → Camera c) (p : Vec 3) : JacState m c :=
  ⟨(List.finRange m).map (fBlockAt fv cams p), eStacked fv cams p, bStacked fv cams p,
   fTotal fv cams p⟩


/-! ### Concrete fixtures for small sanity instances -/

/-- One-measurement view: `z = 0`, identity whitener, key 7, no sensor offset. -/
def fvW1 : FactorView 1 0 := ⟨fun _ => fun _ => 0, fun _ => 1, fun _ => 7, none⟩

/-- A camera whose projection output is fixed: pixel (3, 5), point Jacobian with unit
diagonal rows. -/
def camW1 : Camera 0 :=
  ⟨fun _ => Except.ok ⟨fun r => if r = 0 then 3 else 5, 0,
    Matrix.of fun r q => if (r : ℕ) = (q : ℕ) then 1 else 0, 0⟩⟩

/-- The one-camera set built from `camW1`. -/
def camsW1 : Fin 1 → Camera 0 := fun _ => camW1

/-- A fixed evaluation point. -/
def pW1 : Vec 3 := fun _ => 0

/-- The assembly state of the fixture run. -/
def sW1 : JacState 1 0 := jacResult fvW1 camsW1 pW1

/-- The fixture point covariance with `lambda = 1` and diagonal damping. -/
def qW1 : Matrix (Fin 3) (Fin 3) ℚ :=
  inv3 ((eStacked fvW1 camsW1 pW1)ᵀ * eStacked fvW1 camsW1 pW1 +
    (1 : ℚ) • dampingMatrix ((eStacked fvW1 camsW1 pW1)ᵀ * eStacked fvW1 camsW1 pW1) true)

/-- The fixture point covariance with `lambda = 0` and no diagonal damping. -/
def qW0 : Matrix (Fin 3) (Fin 3) ℚ :=
  inv3 ((eStacked fvW1 camsW1 pW1)ᵀ * eStacked fvW1 camsW1 pW1 +
    (0 : ℚ) • dampingMatrix ((eStacked fvW1 camsW1 pW1)ᵀ * eStacked fvW1 camsW1 pW1) false)

/-- A camera that always signals cheirality. -/
def camFail : Camera 0 := ⟨fun _ => Except.error ⟨⟩⟩

/-- Two-measurement view for the SVD fixture. -/
def fvW2 : FactorView 2 0 := ⟨fun _ => fun _ => 0, fun _ => 1, fun i => (i : ℕ), none⟩

/-- Point-Jacobian rows of the SVD fixture: stacked, they give the 4×3 matrix with
ones on the diagonal. -/
def eW2 (i : Fin 2) : Matrix (Fin 2) (Fin 3) ℚ :=
  Matrix.of fun r q => if 2 * (i : ℕ) + (r : ℕ) = (q : ℕ) then 1 else 0

/-- The camera set of the SVD fixture. -/
def camsW2 : Fin 2 → Camera 0 :=
  fun i => ⟨fun _ => Except.ok ⟨fun _ => 0, 0, eW2 i, 0⟩⟩

/-- A full `U` factor for the SVD fixture: the identity in stacked-row order. -/
def uW : Matrix (Fin 2 × Fin 2) (Fin (2 * 2)) ℚ :=
  Matrix.of fun rc j => if 2 * (rc.1 : ℕ) + (rc.2 : ℕ) = (j : ℕ) then 1 else 0

/-- The rectangular diagonal factor of the SVD fixture (singular values all 1). -/
def sW : Matrix (Fin (2 * 2)) (Fin 3) ℚ :=
  Matrix.of fun i j => if (i : ℕ) = (j : ℕ) then 1 else 0

/-- The assembly state of the two-measurement SVD fixture. -/
def sW2 : JacState 2 0 := jacResult fvW2 camsW2 pW1

/-- The SVD-variant output of the fixture. -/
def outW2 : SvdResult 2 0 := ⟨sW2.Fblocks, enullOf uW, sW2.b, sW2.f⟩

/-- Point-Jacobian rows of the degenerate SVD fixture: the two cameras have
proportional blocks (scales 3/5 and 4/5), so the stacked whitened `E` has rank 2. -/
def eD (i : Fin 2) : Matrix (Fin 2) (Fin 3) ℚ :=
  Matrix.of fun r q => if (r : ℕ) = (q : ℕ) then (if i = 0 then 3 / 5 else 4 / 5) else 0

/-- The degenerate camera pair. -/
def camsD : Fin 2 → Camera 0 :=
  fun i => ⟨fun _ => Except.ok ⟨fun _ => 0, 0, eD i, 0⟩⟩

/-- An exact full `U` factor for the degenerate fixture: columns 0,1 are the left
singular vectors of the rank-2 `E` (singular values 1, 1), columns 2,3 an
orthonormal completion. -/
def uD : Matrix (Fin 2 × Fin 2) (Fin (2 * 2)) ℚ :=
  Matrix.of fun rc j =>
    if (rc.2 : ℕ) = (j : ℕ) % 2 then
      (if (j : ℕ) < 2 then (if rc.1 = 0 then 3 / 5 else 4 / 5)
       else (if rc.1 = 0 then 4 / 5 else -(3 / 5)))
    else 0

/-- The rectangular diagonal factor of the degenerate fixture: singular values
1, 1, 0 — the third one vanishes. -/
def sD : Matrix (Fin (2 * 2)) (Fin 3) ℚ :=
  Matrix.of fun i j => if (i : ℕ) = (j : ℕ) ∧ (i : ℕ) < 2 then 1 else 0

/-- The assembly state of the degenerate fixture. -/
def sD2 : JacState 2 0 := jacResult fvW2 camsD pW1

/-- The SVD-variant output of the degenerate fixture. -/
def outD : SvdResult 2 0 := ⟨sD2.Fblocks, enullOf uD, sD2.b, sD2.f⟩

/-- A vector of the null space of `Eᵀ` for the degenerate fixture that `Enull` does
not span: the third left singular vector of `uD` (column 2). -/
def vD : (Fin 2 × Fin 2) → ℚ :=
  fun rc => if rc.2 = 0 then (if rc.1 = 0 then 4 / 5 else -(3 / 5)) else 0

/-- A sensor offset used by the body_P_sensor fixture: pure translation by (1,1,1). -/
def offW : Pose3 := ⟨1, fun _ => 1⟩

/-- View with the sensor offset `offW` stored. -/
def fvW4 : FactorView 1 0 := ⟨fun _ => fun _ => 0, fun _ => 1, fun _ => 0, some offW⟩

/-- Evaluation point (0, 0, 5) for the pose cameras. -/
def pW4 : Vec 3 := fun j => if j = 2 then 5 else 0

/-- Factors that agree on keys, sensor offset and first measurement but differ in the
second measurement. -/
def f9a : SmartFactorBase 0 := ⟨[fun _ => 1, fun _ => 2], [1, 1], [7, 8], none⟩

/-- Companion of `f9a`, differing only in the second measurement. -/
def f9b : SmartFactorBase 0 := ⟨[fun _ => 1, fun _ => 9], [1, 1], [7, 8], none⟩

/-! ### Basic lemmas -/

theorem okBind {ε α β : Type} (a : α) (f : α → Except ε β) :
    (Except.ok a >>= f : Except ε β) = f a := rfl

theorem errorBind {ε α β : Type} (e : ε) (f : α → Except ε β) :
    ((Except.error e : Except ε α) >>= f : Except ε β) = Except.error e := rfl

theorem okMap {ε α β : Type} (a : α) (f : α → β) :
    (Except.ok a : Except ε α).map f = Except.ok (f a) := rfl

theorem hcat_zero (A : Matrix (Fin 2) (Fin 6) ℚ) (B : Matrix (Fin 2) (Fin 0) ℚ) :
    hcat A B = A := by
  funext r j
  have hj : (j : ℕ) < 6 := j.isLt
  simp [hcat, hj]

theorem inv3_eq_inv (A : Matrix (Fin 3) (Fin 3) ℚ) : inv3 A = A⁻¹ := by
  rw [inv3, Matrix.inv_def, Ring.inverse_eq_inv]

theorem dampingMatrix_eq (EtE : Matrix (Fin 3) (Fin 3) ℚ) (dd : Bool) :
    dampingMatrix EtE dd = if dd then Matrix.diagonal (fun i => EtE i i) else 1 := by
  cases dd with
  | false => rfl
  | true =>
    funext i j
    fin_cases i <;> fin_cases j <;>
      simp [dampingMatrix, setEntry, Matrix.diagonal, Matrix.one_apply]

theorem pose3Equals_self (a : Pose3) : pose3Equals a a defaultTol = true := by
  unfold pose3Equals
  simp only [sub_self, abs_zero, Bool.and_eq_true, decide_eq_true_eq]
  norm_num [defaultTol]

/-! ### Loop machinery: the per-measurement loops of the source, reduced to pure
folds under a no-cheirality hypothesis, or shown to abort on a cheirality signal. -/

theorem foldlM_genStep_ok {σ : Type} (proj : Fin m → Except Cheirality (ProjOut c))
    (upd : Fin m → ProjOut c → σ → σ) (l : List (Fin m))
    (h : ∀ i ∈ l, ∃ t, proj i = Except.ok t) (s : σ) :
    l.foldlM (genStep proj upd) s =
      Except.ok (l.foldl (fun s i => upd i (projD proj i) s) s) := by
  induction l generalizing s with
  | nil => rfl
  | cons a l ih =>
    obtain ⟨t, ht⟩ := h a (List.mem_cons_self a l)
    have hstep : genStep proj upd s a = Except.ok (upd a t s) := by
      simp [genStep, ht]
    have hpd : projD proj a = t := by simp [projD, ht]
    rw [List.foldlM_cons, hstep, okBind,
      ih (fun i hi => h i (List.mem_cons_of_mem a hi)), List.foldl_cons, hpd]

theorem foldlM_genStep_error {σ : Type} (proj : Fin m → Except Cheirality (ProjOut c))
    (upd : Fin m → ProjOut c → σ → σ) (l : List (Fin m)) (i : Fin m) (e : Cheirality)
    (hi : i ∈ l) (he : proj i = Except.error e) (s : σ) :
    ∃ e', l.foldlM (genStep proj upd) s = Except.error e' := by
  induction l generalizing s with
  | nil => cases hi
  | cons a l ih =>
    rw [List.foldlM_cons]
    cases hpa : proj a with
    | error ea =>
      refine ⟨ea, ?_⟩
      have : genStep proj upd s a = Except.error ea := by simp [genStep, hpa]
      rw [this, errorBind]
    | ok t =>
      have hstep : genStep proj upd s a = Except.ok (upd a t s) := by simp [genStep, hpa]
      rw [hstep, okBind]
      have hia : i ∈ l := by
        rcases List.mem_cons.mp hi with h1 | h1
        · subst h1; rw [he] at hpa; simp at hpa
        · exact h1
      exact ih hia _

theorem foldl_overwrite {Y : Type} (val : Fin m → Fin 2 → Y) (l : List (Fin m))
    (s : (Fin m × Fin 2) → Y) (rc : Fin m × Fin 2) :
    (l.foldl (fun s i => fun rc => if rc.1 = i then val i rc.2 else s rc) s) rc =
      if rc.1 ∈ l then val rc.1 rc.2 else s rc := by
  induction l generalizing s with
  | nil => simp
  | cons a l ih =>
    rw [List.foldl_cons, ih]
    by_cases h1 : rc.1 ∈ l
    · simp [h1]
    · by_cases h2 : rc.1 = a
      · simp [h1, h2]
      · simp [h1, h2]

theorem of_row {α n p' : Type} (f : n → p' → α) (i : n) : Matrix.of f i = f i := rfl

theorem foldl_overwrite_mat {n : ℕ} (val : Fin m → Fin 2 → Fin n → ℚ) (l : List (Fin m))
    (s : Matrix (Fin m × Fin 2) (Fin n) ℚ) (rc : Fin m × Fin 2) :
    (l.foldl (fun s i => Matrix.of fun rc => if rc.1 = i then val i rc.2 else s rc) s) rc =
      if rc.1 ∈ l then val rc.1 rc.2 else s rc := by
  induction l generalizing s with
  | nil => simp
  | cons a l ih =>
    rw [List.foldl_cons, ih]
    by_cases h1 : rc.1 ∈ l
    · simp [h1]
    · by_cases h2 : rc.1 = a
      · simp [h1, h2, of_row]
      · simp [h1, h2, of_row]

theorem foldl_append_singleton {α β : Type} (g : β → α) (l : List β) (s : List α) :
    l.foldl (fun L i => L ++ [g i]) s = s ++ l.map g := by
  induction l generalizing s with
  | nil => simp
  | cons a l ih => simp [ih]

theorem foldl_add_map {β : Type} (g : β → ℚ) (l : List β) (s : ℚ) :
    l.foldl (fun acc i => acc + g i) s = s + (l.map g).sum := by
  induction l generalizing s with
  | nil => simp
  | cons a l ih => simp [ih, add_assoc]

theorem finRange_map_sum (n : ℕ) (f : Fin n → ℚ) :
    ((List.finRange n).map f).sum = ∑ i, f i := by
  rw [← List.ofFn_eq_map, List.sum_ofFn]

theorem jacState_ext {a b : JacState m c} (h1 : a.Fblocks = b.Fblocks) (h2 : a.E = b.E)
    (h3 : a.b = b.b) (h4 : a.f = b.f) : a = b := by
  cases a; cases b; simp_all

/-! ### Closed forms of the assembly loops under a no-cheirality hypothesis -/

theorem computeJacobians_ok (fv : FactorView m c) (cams : Fin m → Camera c) (p : Vec 3)
    (h : ∀ i : Fin m, ∃ t, (cams i).project p = Except.ok t) :
    computeJacobians fv cams p = Except.ok (jacResult fv cams p) := by
  rw [computeJacobians, foldlM_genStep_ok (projOf cams p) (jacUpd fv) _ (fun i _ => h i)]
  congr 1
  apply jacState_ext
  · rw [← List.foldl_hom JacState.Fblocks _
      (fun L i => L ++ [fBlockAt fv cams p i]) (List.finRange m) _ (fun x y => rfl)]
    rw [foldl_append_singleton]
    simp [jacResult]
  · rw [← List.foldl_hom JacState.E _
      (fun Ecur i => Matrix.of fun rc => if rc.1 = i then eRowsAt fv cams p i rc.2 else Ecur rc)
      (List.finRange m) _ (fun x y => rfl)]
    funext rc
    rw [foldl_overwrite_mat (fun i r => eRowsAt fv cams p i r)]
    simp [List.mem_finRange, jacResult, eStacked, of_row]
  · rw [← List.foldl_hom JacState.b _
      (fun bcur i => fun rc => if rc.1 = i then whitenedResidual fv cams p i rc.2 else bcur rc)
      (List.finRange m) _ (fun x y => rfl)]
    funext rc
    rw [foldl_overwrite (fun i r => whitenedResidual fv cams p i r)]
    simp [List.mem_finRange, jacResult, bStacked]
  · rw [← List.foldl_hom JacState.f _
      (fun acc i => acc + sqNorm2 (whitenedResidual fv cams p i))
      (List.finRange m) _ (fun x y => rfl)]
    rw [foldl_add_map, finRange_map_sum]
    simp [jacResult, fTotal]

theorem computeEP_ok (fv : FactorView m c) (cams : Fin m → Camera c) (p : Vec 3)
    (h : ∀ i : Fin m, ∃ t, (cams i).project p = Except.ok t) :
    computeEP fv cams p = Except.ok
      (eStacked fv cams p, inv3 ((eStacked fv cams p)ᵀ * eStacked fv cams p)) := by
  rw [computeEP, foldlM_genStep_ok (projOf cams p) (epUpd fv) _ (fun i _ => h i), okMap]
  have hE : (List.finRange m).foldl
      (fun E i => epUpd fv i (projD (projOf cams p) i) E) (Matrix.of fun _ _ => 0) =
      eStacked fv cams p := by
    rw [show (fun (E : Matrix (Fin m × Fin 2) (Fin 3) ℚ) (i : Fin m) =>
          epUpd fv i (projD (projOf cams p) i) E) =
        (fun E i => Matrix.of fun rc =>
          if rc.1 = i then eRowsAt fv cams p i rc.2 else E rc) from rfl]
    funext rc
    rw [foldl_overwrite_mat (fun i r => eRowsAt fv cams p i r)]
    simp [List.mem_finRange, eStacked, of_row]
  rw [hE]

theorem reprojectionError_ok (fv : FactorView m c) (cams : Fin m → Camera c) (p : Vec 3)
    (h : ∀ i : Fin m, ∃ t, (cams i).project p = Except.ok t) :
    reprojectionError fv cams p =
      Except.ok fun rc => (projAt cams p rc.1).pix rc.2 - fv.z rc.1 rc.2 := by
  rw [reprojectionError, foldlM_genStep_ok (projOf cams p) (reprojUpd fv) _ (fun i _ => h i)]
  congr 1
  funext rc
  rw [show (fun (b : (Fin m × Fin 2) → ℚ) (i : Fin m) =>
        reprojUpd fv i (projD (projOf cams p) i) b) =
      (fun b i => fun rc =>
        if rc.1 = i then ((projAt cams p i).pix rc.2 - fv.z i rc.2) else b rc) from rfl]
  rw [foldl_overwrite (fun i r => (projAt cams p i).pix r - fv.z i r)]
  simp [List.mem_finRange]

theorem totalReprojectionError_ok (fv : FactorView m c) (cams : Fin m → Camera c) (p : Vec 3)
    (h : ∀ i : Fin m, ∃ t, (cams i).project p = Except.ok t) :
    totalReprojectionError fv cams p = Except.ok
      (∑ i : Fin m,
        1 / 2 * noiseDistance (fv.W i) fun r => (projAt cams p i).pix r - fv.z i r) := by
  rw [totalReprojectionError,
    foldlM_genStep_ok (projOf cams p) (totalErrUpd fv) _ (fun i _ => h i)]
  congr 1
  rw [show (fun (acc : ℚ) (i : Fin m) => totalErrUpd fv i (projD (projOf cams p) i) acc) =
      (fun acc i => acc +
        1 / 2 * noiseDistance (fv.W i) fun r => (projAt cams p i).pix r - fv.z i r) from rfl]
  rw [foldl_add_map, finRange_map_sum]
  simp

/-! ### The two Schur assembly strategies agree blockwise -/

theorem transposeF_mul {κ : Type} (Fbf : Fin m → Matrix (Fin 2) (Fin D) ℚ)
    (M : Matrix (Fin m × Fin 2) κ ℚ) (i1 : Fin m) (a : Fin D) (x : κ) :
    ((buildF Fbf)ᵀ * M) (i1, a) x = ∑ r : Fin 2, Fbf i1 r a * M (i1, r) x := by
  simp [Matrix.mul_apply, Matrix.transpose_apply, buildF, Matrix.of_apply,
    Fintype.sum_prod_type, ite_mul, zero_mul, Finset.sum_ite_irrel,
    Finset.sum_const_zero, Finset.sum_ite_eq']

theorem transposeF_mulVec (Fbf : Fin m → Matrix (Fin 2) (Fin D) ℚ)
    (v : (Fin m × Fin 2) → ℚ) (i1 : Fin m) (a : Fin D) :
    ((buildF Fbf)ᵀ.mulVec v) (i1, a) = ∑ r : Fin 2, Fbf i1 r a * v (i1, r) := by
  simp [Matrix.mulVec, dotProduct, Matrix.transpose_apply, buildF, Matrix.of_apply,
    Fintype.sum_prod_type, ite_mul, zero_mul, Finset.sum_ite_irrel,
    Finset.sum_const_zero, Finset.sum_ite_eq']

theorem ePE_full_apply (E : Matrix (Fin m × Fin 2) (Fin 3) ℚ)
    (P : Matrix (Fin 3) (Fin 3) ℚ) (i1 i2 : Fin m) (r r' : Fin 2) :
    (E * P * Eᵀ) (i1, r) (i2, r') = ePE E P i1 i2 r r' := by
  simp [Matrix.mul_apply, ePE, eBlock, Matrix.transpose_apply, Matrix.of_apply]

theorem ePEF_apply (Fbf : Fin m → Matrix (Fin 2) (Fin D) ℚ)
    (E : Matrix (Fin m × Fin 2) (Fin 3) ℚ) (P : Matrix (Fin 3) (Fin 3) ℚ)
    (i1 i2 : Fin m) (r : Fin 2) (d : Fin D) :
    ((E * P * Eᵀ) * buildF Fbf) (i1, r) (i2, d) = (ePE E P i1 i2 * Fbf i2) r d := by
  rw [Matrix.mul_apply, Matrix.mul_apply, Fintype.sum_prod_type]
  simp only [buildF, Matrix.of_apply, mul_ite, mul_zero, Finset.sum_ite_irrel,
    Finset.sum_const_zero, Finset.sum_ite_eq', Finset.mem_univ, if_true]
  exact Finset.sum_congr rfl fun r' _ => by rw [ePE_full_apply]

theorem ePEb_apply (E : Matrix (Fin m × Fin 2) (Fin 3) ℚ) (P : Matrix (Fin 3) (Fin 3) ℚ)
    (b : (Fin m × Fin 2) → ℚ) (i1 : Fin m) (r : Fin 2) :
    ((E * P * Eᵀ).mulVec b) (i1, r) = ∑ i2 : Fin m, ((ePE E P i1 i2).mulVec (bSeg b i2)) r := by
  simp only [Matrix.mulVec, dotProduct]
  rw [Fintype.sum_prod_type]
  refine Finset.sum_congr rfl fun i2 _ => ?_
  exact Finset.sum_congr rfl fun r' _ => by rw [ePE_full_apply]; rfl

theorem denseGBlock_eq (Fbf : Fin m → Matrix (Fin 2) (Fin D) ℚ)
    (E : Matrix (Fin m × Fin 2) (Fin 3) ℚ) (P : Matrix (Fin 3) (Fin 3) ℚ)
    (i1 i2 : Fin m) (a d : Fin D) :
    ((buildF Fbf)ᵀ * (buildF Fbf - E * (P * (Eᵀ * buildF Fbf)))) (i1, a) (i2, d) =
      schurGBlock Fbf E P i1 i2 a d := by
  have hassoc : E * (P * (Eᵀ * buildF Fbf)) = (E * P * Eᵀ) * buildF Fbf := by
    rw [Matrix.mul_assoc, Matrix.mul_assoc]
  rw [transposeF_mul, hassoc]
  by_cases h : i1 = i2
  · subst h
    rw [schurGBlock, if_pos rfl, Matrix.mul_apply]
    refine Finset.sum_congr rfl fun r _ => ?_
    rw [Matrix.sub_apply, Matrix.sub_apply, ePEF_apply, Matrix.transpose_apply]
    congr 1
    simp [buildF, Matrix.of_apply]
  · rw [schurGBlock, if_neg h, Matrix.neg_apply, Matrix.mul_apply, ← Finset.sum_neg_distrib]
    refine Finset.sum_congr rfl fun r _ => ?_
    rw [Matrix.sub_apply, ePEF_apply, Matrix.transpose_apply]
    have hF : buildF Fbf (i1, r) (i2, d) = 0 := by
      simp [buildF, Matrix.of_apply, h]
    rw [hF]
    ring

theorem denseGrad_eq (Fbf : Fin m → Matrix (Fin 2) (Fin D) ℚ)
    (E : Matrix (Fin m × Fin 2) (Fin 3) ℚ) (P : Matrix (Fin 3) (Fin 3) ℚ)
    (b : (Fin m × Fin 2) → ℚ) (i1 : Fin m) (a : Fin D) :
    ((buildF Fbf)ᵀ.mulVec (b - E.mulVec (P.mulVec (Eᵀ.mulVec b)))) (i1, a) =
      schurGrad Fbf E P b i1 a := by
  have hassoc : E.mulVec (P.mulVec (Eᵀ.mulVec b)) = (E * P * Eᵀ).mulVec b := by
    rw [Matrix.mulVec_mulVec, Matrix.mulVec_mulVec, Matrix.mul_assoc]
  rw [transposeF_mulVec, hassoc, schurGrad]
  rw [Pi.sub_apply, Finset.sum_apply]
  have hlhs : ∀ r : Fin 2,
      Fbf i1 r a * (b - (E * P * Eᵀ).mulVec b) (i1, r) =
        Fbf i1 r a * b (i1, r) -
          ∑ i2 : Fin m, Fbf i1 r a * ((ePE E P i1 i2).mulVec (bSeg b i2)) r := by
    intro r
    rw [Pi.sub_apply, ePEb_apply, mul_sub, Finset.mul_sum]
  rw [Finset.sum_congr rfl fun r _ => hlhs r, Finset.sum_sub_distrib]
  have h1 : ∑ r : Fin 2, Fbf i1 r a * b (i1, r) = ((Fbf i1)ᵀ.mulVec (bSeg b i1)) a := by
    simp only [Matrix.mulVec, dotProduct, Matrix.transpose_apply, bSeg]
  have h2 : (∑ r : Fin 2, ∑ i2 : Fin m, Fbf i1 r a * ((ePE E P i1 i2).mulVec (bSeg b i2)) r) =
      ∑ i2 : Fin m, ((Fbf i1)ᵀ.mulVec ((ePE E P i1 i2).mulVec (bSeg b i2))) a := by
    simp only [Matrix.mulVec, dotProduct, Matrix.transpose_apply]
    apply Finset.sum_comm
  rw [h1, h2]

theorem schurComplement_eq_sparse (Fb : Fin m → Key × Matrix (Fin 2) (Fin D) ℚ)
    (E : Matrix (Fin m × Fin 2) (Fin 3) ℚ) (P : Matrix (Fin 3) (Fin 3) ℚ)
    (b : (Fin m × Fin 2) → ℚ) :
    schurComplement Fb E P b = sparseSchurComplement Fb E P b := by
  simp only [schurComplement, sparseSchurComplement]
  refine congrArg₂ Prod.mk ?_ ?_
  · refine congrArg (List.flatMap (List.finRange m)) (funext fun i1 => ?_)
    refine congrArg (fun f => List.map f ((List.finRange m).filter fun i2 => i1 ≤ i2))
      (funext fun i2 => ?_)
    funext a d
    exact denseGBlock_eq (fun j => (Fb j).2) E P i1 i2 a d
  · refine congrArg (fun f => List.map f (List.finRange m)) (funext fun i1 => ?_)
    funext a
    exact denseGrad_eq (fun j => (Fb j).2) E P b i1 a

/-! ### Packed upper-triangle layout of the sparse Schur output -/

theorem filter_finRange_nat_le : ∀ (m i : ℕ),
    ((List.finRange m).filter fun (j : Fin m) => decide (i ≤ (j : ℕ))) =
      (List.finRange m).drop i := by
  intro m
  induction m with
  | zero => intro i; simp
  | succ m ih =>
    intro i
    rw [List.finRange_succ_eq_map]
    cases i with
    | zero =>
      rw [List.drop_zero]
      exact List.filter_eq_self.mpr fun a _ => by simp
    | succ i =>
      rw [List.drop_succ_cons, List.filter_cons_of_neg (by simp), List.filter_map,
        ← List.map_drop, ← ih i]
      congr 1
      refine List.filter_congr fun j _ => ?_
      simp only [Function.comp_apply, Fin.val_succ]
      exact decide_eq_decide.mpr (by omega)

theorem filter_finRange_fin_le (m : ℕ) (i1 : Fin m) :
    ((List.finRange m).filter fun i2 => i1 ≤ i2) = (List.finRange m).drop (i1 : ℕ) := by
  rw [← filter_finRange_nat_le m (i1 : ℕ)]
  exact List.filter_congr fun j _ => decide_eq_decide.mpr Fin.le_def

theorem filter_finRange_le_length (m : ℕ) (i1 : Fin m) :
    ((List.finRange m).filter fun i2 => i1 ≤ i2).length = m - (i1 : ℕ) := by
  rw [filter_finRange_fin_le, List.length_drop, List.length_finRange]

theorem filter_finRange_le_getElem (m : ℕ) (i1 : Fin m) (k : ℕ) (hk : (i1 : ℕ) + k < m) :
    ((List.finRange m).filter fun i2 => i1 ≤ i2)[k]? = some (⟨(i1 : ℕ) + k, hk⟩ : Fin m) := by
  rw [filter_finRange_fin_le, List.getElem?_drop]
  simp [List.getElem?_eq_getElem, List.length_finRange, hk, List.getElem_finRange]

theorem flatten_getElem_offset {α : Type} :
    ∀ (ls : List (List α)) (n : ℕ) (hn : n < ls.length) (k : ℕ),
      k < (ls.get ⟨n, hn⟩).length →
      ls.flatten[(((ls.take n).map List.length).sum + k)]? = (ls.get ⟨n, hn⟩)[k]? := by
  intro ls
  induction ls with
  | nil => intro n hn; simp at hn
  | cons l ls ih =>
    intro n hn k hk
    cases n with
    | zero =>
      simp only [List.take_zero, List.map_nil, List.sum_nil, List.flatten_cons, Nat.zero_add]
      exact List.getElem?_append_left (by simpa using hk)
    | succ n =>
      simp only [List.take_succ_cons, List.map_cons, List.sum_cons, List.flatten_cons]
      rw [Nat.add_assoc, List.getElem?_append_right (by omega)]
      have harith : l.length + (((ls.take n).map List.length).sum + k) - l.length =
          ((ls.take n).map List.length).sum + k := by omega
      rw [harith]
      exact ih n (by simpa using hn) k (by simpa using hk)

theorem rows_take_sum {α : Type} (m : ℕ) (rowFn : Fin m → List α)
    (hlen : ∀ i1, (rowFn i1).length = m - (i1 : ℕ)) :
    ∀ n, n ≤ m →
      ((((List.finRange m).map rowFn).map List.length).take n).sum = triOffset m n := by
  intro n
  induction n with
  | zero => intro _; simp [triOffset]
  | succ n ih =>
    intro hn
    have hn' : n ≤ m := by omega
    have hlt : n < (((List.finRange m).map rowFn).map List.length).length := by
      simp only [List.length_map, List.length_finRange]; omega
    rw [List.sum_take_succ _ n hlt, ih hn']
    simp only [List.getElem_map, List.getElem_finRange, hlen]
    rw [triOffset, triOffset, Finset.sum_range_succ]
    simp [Fin.coe_cast]

theorem sum_fin_sub (m : ℕ) : (∑ i1 : Fin m, (m - (i1 : ℕ))) = m * (m + 1) / 2 := by
  rw [Fin.sum_univ_eq_sum_range]
  have h2 : ∑ j ∈ Finset.range m, (m - j) = ∑ j ∈ Finset.range m, (j + 1) := by
    rw [← Finset.sum_range_reflect]
    refine Finset.sum_congr rfl fun j hj => ?_
    have := Finset.mem_range.mp hj
    omega
  have h4 : (∑ j ∈ Finset.range (m + 1), j) = ∑ j ∈ Finset.range m, (j + 1) := by
    rw [Finset.sum_range_succ']
    simp
  have h3 : (∑ j ∈ Finset.range (m + 1), j) * 2 = (m + 1) * m :=
    Finset.sum_range_id_mul_two (m + 1)
  rw [h2, ← h4]
  symm
  exact Nat.div_eq_of_eq_mul_left (by norm_num) (by rw [h3, Nat.mul_comm])

theorem finRange_map_sum_nat (n : ℕ) (f : Fin n → ℕ) :
    ((List.finRange n).map f).sum = ∑ i, f i := by
  rw [← List.ofFn_eq_map, List.sum_ofFn]

theorem sparse_Gs_length (Fb : Fin m → Key × Matrix (Fin 2) (Fin D) ℚ)
    (E : Matrix (Fin m × Fin 2) (Fin 3) ℚ) (P : Matrix (Fin 3) (Fin 3) ℚ)
    (b : (Fin m × Fin 2) → ℚ) :
    (sparseSchurComplement Fb E P b).1.length = m * (m + 1) / 2 := by
  simp only [sparseSchurComplement]
  rw [List.length_flatMap]
  simp only [Function.comp_def]
  have h1 : ((List.finRange m).map fun i1 =>
      ((((List.finRange m).filter fun i2 => i1 ≤ i2).map fun i2 =>
        schurGBlock (fun j => (Fb j).2) E P i1 i2)).length).sum =
      ((List.finRange m).map fun (i1 : Fin m) => m - (i1 : ℕ)).sum := by
    congr 1
    refine List.map_congr_left fun i1 _ => ?_
    rw [List.length_map, filter_finRange_le_length]
  rw [h1, finRange_map_sum_nat, sum_fin_sub]

theorem sparse_gs_length (Fb : Fin m → Key × Matrix (Fin 2) (Fin D) ℚ)
    (E : Matrix (Fin m × Fin 2) (Fin 3) ℚ) (P : Matrix (Fin 3) (Fin 3) ℚ)
    (b : (Fin m × Fin 2) → ℚ) :
    (sparseSchurComplement Fb E P b).2.length = m := by
  simp [sparseSchurComplement]

theorem sparse_gs_getElem (Fb : Fin m → Key × Matrix (Fin 2) (Fin D) ℚ)
    (E : Matrix (Fin m × Fin 2) (Fin 3) ℚ) (P : Matrix (Fin 3) (Fin 3) ℚ)
    (b : (Fin m × Fin 2) → ℚ) (i : Fin m) :
    (sparseSchurComplement Fb E P b).2[(i : ℕ)]? =
      some (schurGrad (fun j => (Fb j).2) E P b i) := by
  simp only [sparseSchurComplement]
  rw [List.getElem?_map]
  simp [List.getElem?_eq_getElem, List.length_finRange, i.isLt, List.getElem_finRange]

theorem sparse_Gs_getElem (Fb : Fin m → Key × Matrix (Fin 2) (Fin D) ℚ)
    (E : Matrix (Fin m × Fin 2) (Fin 3) ℚ) (P : Matrix (Fin 3) (Fin 3) ℚ)
    (b : (Fin m × Fin 2) → ℚ) (i1 i2 : Fin m) (h : i1 ≤ i2) :
    (sparseSchurComplement Fb E P b).1[triOffset m (i1 : ℕ) + ((i2 : ℕ) - (i1 : ℕ))]? =
      some (schurGBlock (fun j => (Fb j).2) E P i1 i2) := by
  have hle : (i1 : ℕ) ≤ (i2 : ℕ) := Fin.le_def.mp h
  simp only [sparseSchurComplement]
  rw [List.flatMap_def]
  have hn : (i1 : ℕ) < (((List.finRange m).map fun i1 =>
      ((List.finRange m).filter fun i2 => i1 ≤ i2).map fun i2 =>
        schurGBlock (fun j => (Fb j).2) E P i1 i2).length) := by
    simp [List.length_finRange]
  have hget : (((List.finRange m).map fun i1 =>
      ((List.finRange m).filter fun i2 => i1 ≤ i2).map fun i2 =>
        schurGBlock (fun j => (Fb j).2) E P i1 i2)).get ⟨(i1 : ℕ), hn⟩ =
      ((List.finRange m).filter fun i2 => i1 ≤ i2).map fun i2 =>
        schurGBlock (fun j => (Fb j).2) E P i1 i2 := by
    simp [List.get_eq_getElem, List.getElem_map, List.getElem_finRange]
  have hk : (i2 : ℕ) - (i1 : ℕ) < ((((List.finRange m).map fun i1 =>
      ((List.finRange m).filter fun i2 => i1 ≤ i2).map fun i2 =>
        schurGBlock (fun j => (Fb j).2) E P i1 i2)).get ⟨(i1 : ℕ), hn⟩).length := by
    rw [hget, List.length_map, filter_finRange_le_length]
    have := i2.isLt
    omega
  have hoff : ((((List.finRange m).map fun i1 =>
      ((List.finRange m).filter fun i2 => i1 ≤ i2).map fun i2 =>
        schurGBlock (fun j => (Fb j).2) E P i1 i2).take (i1 : ℕ)).map List.length).sum =
      triOffset m (i1 : ℕ) := by
    rw [List.map_take]
    exact rows_take_sum m _ (fun j => by rw [List.length_map, filter_finRange_le_length]) _
      (le_of_lt i1.isLt)
  rw [← hoff, flatten_getElem_offset _ _ hn _ hk, hget, List.getElem?_map,
    filter_finRange_le_getElem m i1 ((i2 : ℕ) - (i1 : ℕ)) (by have := i2.isLt; omega)]
  have hfin : (⟨(i1 : ℕ) + ((i2 : ℕ) - (i1 : ℕ)), by have := i2.isLt; omega⟩ : Fin m) = i2 := by
    apply Fin.ext
    show (i1 : ℕ) + ((i2 : ℕ) - (i1 : ℕ)) = (i2 : ℕ)
    omega
  rw [hfin]
  rfl

/-! ### SVD contract: the last `2m − 3` columns of `U` are an orthonormal basis of
the null space of `Eᵀ` when `E` has full column rank -/

theorem svd_col_dot (U : Matrix (Fin m × Fin 2) (Fin (2 * m)) ℚ)
    (hU : Uᵀ * U = 1) (c1 c2 : Fin (2 * m)) :
    (∑ rc : Fin m × Fin 2, U rc c1 * U rc c2) = if c1 = c2 then 1 else 0 := by
  have h := congrFun (congrFun hU c1) c2
  simpa [Matrix.mul_apply, Matrix.transpose_apply, Matrix.one_apply] using h

theorem enull_orthonormal (U : Matrix (Fin m × Fin 2) (Fin (2 * m)) ℚ)
    (hU : Uᵀ * U = 1) (k k' : Fin (2 * m - 3)) :
    (∑ rc : Fin m × Fin 2, enullOf U rc k * enullOf U rc k') = if k = k' then 1 else 0 := by
  have h1 : (∑ rc : Fin m × Fin 2, enullOf U rc k * enullOf U rc k') =
      ∑ rc : Fin m × Fin 2,
        U rc ⟨3 + (k : ℕ), by have := k.isLt; omega⟩ *
          U rc ⟨3 + (k' : ℕ), by have := k'.isLt; omega⟩ := by
    refine Finset.sum_congr rfl fun rc _ => ?_
    rfl
  rw [h1, svd_col_dot U hU]
  by_cases hkk : k = k'
  · subst hkk; simp
  · have hv : (k : ℕ) ≠ (k' : ℕ) := fun hh => hkk (Fin.ext hh)
    have h2 : (⟨3 + (k : ℕ), by have := k.isLt; omega⟩ : Fin (2 * m)) ≠
        ⟨3 + (k' : ℕ), by have := k'.isLt; omega⟩ := by
      simp only [ne_eq, Fin.mk.injEq]
      omega
    simp [h2, hkk]

theorem uT_mulVec_enull (U : Matrix (Fin m × Fin 2) (Fin (2 * m)) ℚ)
    (hU : Uᵀ * U = 1) (k : Fin (2 * m - 3)) :
    Uᵀ.mulVec (fun rc => enullOf U rc k) =
      fun cfull => if cfull = ⟨3 + (k : ℕ), by have := k.isLt; omega⟩ then 1 else 0 := by
  funext cfull
  simp only [Matrix.mulVec, dotProduct, Matrix.transpose_apply, enullOf, Matrix.of_apply]
  exact svd_col_dot U hU cfull ⟨3 + (k : ℕ), by have := k.isLt; omega⟩

theorem enull_in_kernel (U : Matrix (Fin m × Fin 2) (Fin (2 * m)) ℚ)
    (S : Matrix (Fin (2 * m)) (Fin 3) ℚ) (V : Matrix (Fin 3) (Fin 3) ℚ)
    (E0 : Matrix (Fin m × Fin 2) (Fin 3) ℚ)
    (hU : Uᵀ * U = 1) (hE : E0 = U * S * Vᵀ)
    (hS : ∀ (i : Fin (2 * m)) (j : Fin 3), (i : ℕ) ≠ (j : ℕ) → S i j = 0)
    (k : Fin (2 * m - 3)) :
    E0ᵀ.mulVec (fun rc => enullOf U rc k) = 0 := by
  have hEt : E0ᵀ = V * (Sᵀ * Uᵀ) := by
    rw [hE, Matrix.transpose_mul, Matrix.transpose_mul, Matrix.transpose_transpose]
  rw [hEt, ← Matrix.mulVec_mulVec, ← Matrix.mulVec_mulVec, uT_mulVec_enull U hU k]
  have hSt : Sᵀ.mulVec
      (fun cfull => if cfull = (⟨3 + (k : ℕ), by have := k.isLt; omega⟩ : Fin (2 * m))
        then (1 : ℚ) else 0) = 0 := by
    funext j
    simp only [Matrix.mulVec, dotProduct, Matrix.transpose_apply, mul_ite, mul_one, mul_zero,
      Finset.sum_ite_eq', Finset.mem_univ, if_true, Pi.zero_apply]
    refine hS _ j ?_
    have := j.isLt
    simp only [Fin.val_mk]
    omega
  rw [hSt, Matrix.mulVec_zero]

theorem enull_spans (hm : 2 ≤ m) (U : Matrix (Fin m × Fin 2) (Fin (2 * m)) ℚ)
    (S : Matrix (Fin (2 * m)) (Fin 3) ℚ) (V : Matrix (Fin 3) (Fin 3) ℚ)
    (E0 : Matrix (Fin m × Fin 2) (Fin 3) ℚ)
    (hU : Uᵀ * U = 1) (hV : Vᵀ * V = 1) (hE : E0 = U * S * Vᵀ)
    (hS : ∀ (i : Fin (2 * m)) (j : Fin 3), (i : ℕ) ≠ (j : ℕ) → S i j = 0)
    (hrank : ∀ (j : Fin 3) (hj : (j : ℕ) < 2 * m), S ⟨(j : ℕ), hj⟩ j ≠ 0)
    (v : (Fin m × Fin 2) → ℚ) (hv : E0ᵀ.mulVec v = 0) :
    ∃ coef : Fin (2 * m - 3) → ℚ, v = fun rc => ∑ k, coef k * enullOf U rc k := by
  have hEt : E0ᵀ = V * (Sᵀ * Uᵀ) := by
    rw [hE, Matrix.transpose_mul, Matrix.transpose_mul, Matrix.transpose_transpose]
  have hUUt : U * Uᵀ = 1 := by
    have e : (Fin m × Fin 2) ≃ Fin (2 * m) :=
      finProdFinEquiv.trans (finCongr (Nat.mul_comm m 2))
    exact (Matrix.mul_eq_one_comm_of_equiv e.symm).mp hU
  have hvU : U.mulVec (Uᵀ.mulVec v) = v := by
    rw [Matrix.mulVec_mulVec, hUUt, Matrix.one_mulVec]
  have hVinj : ∀ x : Fin 3 → ℚ, V.mulVec x = 0 → x = 0 := by
    intro x hx
    have h2 : Vᵀ.mulVec (V.mulVec x) = 0 := by rw [hx, Matrix.mulVec_zero]
    rwa [Matrix.mulVec_mulVec, hV, Matrix.one_mulVec] at h2
  have hSw : Sᵀ.mulVec (Uᵀ.mulVec v) = 0 := by
    apply hVinj
    rw [Matrix.mulVec_mulVec, Matrix.mulVec_mulVec, Matrix.mul_assoc, ← hEt]
    exact hv
  have hw3 : ∀ (jf : Fin (2 * m)), (jf : ℕ) < 3 → Uᵀ.mulVec v jf = 0 := by
    intro jf hj
    have h0 := congrFun hSw ⟨(jf : ℕ), hj⟩
    have hsum : Sᵀ.mulVec (Uᵀ.mulVec v) ⟨(jf : ℕ), hj⟩ =
        S jf ⟨(jf : ℕ), hj⟩ * Uᵀ.mulVec v jf := by
      simp only [Matrix.mulVec, dotProduct, Matrix.transpose_apply]
      refine Finset.sum_eq_single jf (fun b _ hb => ?_) (fun hmem => ?_)
      · rw [hS b ⟨(jf : ℕ), hj⟩ (fun hh => hb (Fin.ext hh)), zero_mul]
      · exact absurd (Finset.mem_univ jf) hmem
    rw [hsum] at h0
    have h0' : S jf ⟨(jf : ℕ), hj⟩ * Uᵀ.mulVec v jf = 0 := by simpa using h0
    have hnz : S jf ⟨(jf : ℕ), hj⟩ ≠ 0 := hrank ⟨(jf : ℕ), hj⟩ jf.isLt
    exact (mul_eq_zero.mp h0').resolve_left hnz
  refine ⟨fun k => Uᵀ.mulVec v ⟨3 + (k : ℕ), by have := k.isLt; omega⟩, ?_⟩
  funext rc
  conv_lhs => rw [← hvU]
  rw [show U.mulVec (Uᵀ.mulVec v) rc =
    ∑ cfull : Fin (2 * m), U rc cfull * Uᵀ.mulVec v cfull from rfl]
  rw [← Finset.sum_filter_add_sum_filter_not Finset.univ
    (fun cfull : Fin (2 * m) => (cfull : ℕ) < 3)]
  have hzero : (∑ cfull ∈ Finset.univ.filter (fun cfull : Fin (2 * m) => (cfull : ℕ) < 3),
      U rc cfull * Uᵀ.mulVec v cfull) = 0 :=
    Finset.sum_eq_zero fun cfull hc => by
      rw [hw3 cfull (Finset.mem_filter.mp hc).2, mul_zero]
  rw [hzero, zero_add]
  refine Finset.sum_nbij' (fun cfull => (⟨(cfull : ℕ) - 3, by
      have := cfull.isLt; omega⟩ : Fin (2 * m - 3)))
    (fun k => (⟨3 + (k : ℕ), by have := k.isLt; omega⟩ : Fin (2 * m)))
    ?_ ?_ ?_ ?_ ?_
  · intro a _
    exact Finset.mem_univ _
  · intro a ha
    simp only [Finset.mem_filter, Finset.mem_univ, true_and, Fin.val_mk]
    omega
  · intro a ha
    have h3 : ¬ (a : ℕ) < 3 := by
      simpa using (Finset.mem_filter.mp ha).2
    apply Fin.ext
    simp only [Fin.val_mk]
    omega
  · intro a _
    apply Fin.ext
    simp only [Fin.val_mk]
    omega
  · intro a ha
    have h3 : ¬ (a : ℕ) < 3 := by
      simpa using (Finset.mem_filter.mp ha).2
    have hfin : (⟨3 + ((a : ℕ) - 3), by have := a.isLt; omega⟩ : Fin (2 * m)) = a := by
      apply Fin.ext
      simp only [Fin.val_mk]
      omega
    show U rc a * (Uᵀ.mulVec v) a =
      (Uᵀ.mulVec v) ⟨3 + ((a : ℕ) - 3), by have := a.isLt; omega⟩ *
        U rc ⟨3 + ((a : ℕ) - 3), by have := a.isLt; omega⟩
    rw [congrArg (Uᵀ.mulVec v) hfin, congrArg (U rc) hfin, mul_comm]

/-! ### Batch appends: lockstep pushes and out-of-range behavior -/

theorem addBatch_run (zs : List (Vec 2)) (ks : List Key) (ns : List NoiseModel) :
    ∀ (n : ℕ) (fac : SmartFactorBase c), n ≤ zs.length → n ≤ ks.length → n ≤ ns.length →
      (List.range n).foldlM (addBatchStep zs ks ns) fac =
        Except.ok ⟨fac.measured ++ zs.take n, fac.noise ++ ns.take n,
          fac.keys ++ ks.take n, fac.body_P_sensor⟩ := by
  intro n
  induction n with
  | zero => intro fac _ _ _; cases fac; simp; rfl
  | succ n ih =>
    intro fac h1 h2 h3
    rw [List.range_succ, List.foldlM_append,
      ih fac (by omega) (by omega) (by omega), okBind, List.foldlM_cons]
    have hz : zs[n]? = some zs[n] := List.getElem?_eq_getElem (by omega)
    have hks : ks[n]? = some ks[n] := List.getElem?_eq_getElem (by omega)
    have hns : ns[n]? = some ns[n] := List.getElem?_eq_getElem (by omega)
    rw [addBatchStep, hz, hks, hns]
    rw [okBind, List.foldlM_nil]
    simp only [List.take_succ, hz, hks, hns, Option.toList_some, List.append_assoc]
    rfl

theorem addBatch_ok (fac : SmartFactorBase c) (zs : List (Vec 2)) (ks : List Key)
    (ns : List NoiseModel) (hk : zs.length ≤ ks.length) (hn : zs.length ≤ ns.length) :
    fac.addBatch zs ks ns = Except.ok ⟨fac.measured ++ zs, fac.noise ++ ns.take zs.length,
      fac.keys ++ ks.take zs.length, fac.body_P_sensor⟩ := by
  rw [SmartFactorBase.addBatch, addBatch_run zs ks ns zs.length fac le_rfl hk hn,
    List.take_length]

theorem addBatch_fail (fac : SmartFactorBase c) (zs : List (Vec 2)) (ks : List Key)
    (ns : List NoiseModel) (h : ks.length < zs.length ∨ ns.length < zs.length) :
    ∃ fac', fac.addBatch zs ks ns = Except.error fac' := by
  have ht : min ks.length ns.length < zs.length := by omega
  have hsplit : List.range zs.length =
      List.range (min ks.length ns.length) ++
        (List.range (zs.length - min ks.length ns.length)).map
          (min ks.length ns.length + ·) := by
    rw [← List.range_add]
    congr 1
    omega
  rw [SmartFactorBase.addBatch, hsplit, List.foldlM_append,
    addBatch_run zs ks ns (min ks.length ns.length) fac (by omega) (by omega) (by omega),
    okBind]
  obtain ⟨k, hk⟩ : ∃ k, zs.length - min ks.length ns.length = k + 1 :=
    ⟨zs.length - min ks.length ns.length - 1, by omega⟩
  rw [hk, List.range_succ_eq_map, List.map_cons, List.foldlM_cons]
  have hz : zs[min ks.length ns.length + 0]? =
      some zs[min ks.length ns.length + 0] := List.getElem?_eq_getElem (by omega)
  by_cases hkt : ks.length ≤ min ks.length ns.length
  · have hkn : ks[min ks.length ns.length + 0]? = none := List.getElem?_eq_none (by omega)
    rw [addBatchStep, hz, hkn, errorBind]
    exact ⟨_, rfl⟩
  · have hnn : ns[min ks.length ns.length + 0]? = none := List.getElem?_eq_none (by omega)
    have hkk : ks[min ks.length ns.length + 0]? =
        some ks[min ks.length ns.length + 0] := List.getElem?_eq_getElem (by omega)
    rw [addBatchStep, hz, hkk, hnn, errorBind]
    exact ⟨_, rfl⟩

theorem addBatchShared_run (zs : List (Vec 2)) (ks : List Key) (n0 : NoiseModel) :
    ∀ (n : ℕ) (fac : SmartFactorBase c), n ≤ zs.length → n ≤ ks.length →
      (List.range n).foldlM (addBatchSharedStep zs ks n0) fac =
        Except.ok ⟨fac.measured ++ zs.take n, fac.noise ++ List.replicate n n0,
          fac.keys ++ ks.take n, fac.body_P_sensor⟩ := by
  intro n
  induction n with
  | zero => intro fac _ _; cases fac; simp; rfl
  | succ n ih =>
    intro fac h1 h2
    rw [List.range_succ, List.foldlM_append, ih fac (by omega) (by omega), okBind,
      List.foldlM_cons]
    have hz : zs[n]? = some zs[n] := List.getElem?_eq_getElem (by omega)
    have hks : ks[n]? = some ks[n] := List.getElem?_eq_getElem (by omega)
    rw [addBatchSharedStep, hz, hks]
    rw [okBind, List.foldlM_nil]
    simp only [List.take_succ, hz, hks, Option.toList_some, List.append_assoc]
    rw [show List.replicate (n + 1) n0 = List.replicate n n0 ++ [n0] from List.replicate_succ' n n0]
    rfl

theorem addBatchShared_ok (fac : SmartFactorBase c) (zs : List (Vec 2)) (ks : List Key)
    (n0 : NoiseModel) (hk : zs.length ≤ ks.length) :
    fac.addBatchShared zs ks n0 = Except.ok ⟨fac.measured ++ zs,
      fac.noise ++ List.replicate zs.length n0,
      fac.keys ++ ks.take zs.length, fac.body_P_sensor⟩ := by
  rw [SmartFactorBase.addBatchShared, addBatchShared_run zs ks n0 zs.length fac le_rfl hk,
    List.take_length]

theorem addBatchShared_fail (fac : SmartFactorBase c) (zs : List (Vec 2)) (ks : List Key)
    (n0 : NoiseModel) (h : ks.length < zs.length) :
    ∃ fac', fac.addBatchShared zs ks n0 = Except.error fac' := by
  have hsplit : List.range zs.length =
      List.range ks.length ++ (List.range (zs.length - ks.length)).map (ks.length + ·) := by
    rw [← List.range_add]
    congr 1
    omega
  rw [SmartFactorBase.addBatchShared, hsplit, List.foldlM_append,
    addBatchShared_run zs ks n0 ks.length fac (by omega) le_rfl, okBind]
  obtain ⟨k, hk⟩ : ∃ k, zs.length - ks.length = k + 1 := ⟨zs.length - ks.length - 1, by omega⟩
  rw [hk, List.range_succ_eq_map, List.map_cons, List.foldlM_cons]
  have hz : zs[ks.length + 0]? = some zs[ks.length + 0] := List.getElem?_eq_getElem (by omega)
  have hkn : ks[ks.length + 0]? = none := List.getElem?_eq_none (by omega)
  rw [addBatchSharedStep, hz, hkn, errorBind]
  exact ⟨_, rfl⟩

/-! ### Success and failure forms of the PointCov, Hessian and EP entry points -/

theorem computeJacobiansPointCov_ok (fv : FactorView m c) (cams : Fin m → Camera c)
    (p : Vec 3) (lam : ℚ) (dd : Bool)
    (h : ∀ i : Fin m, ∃ t, (cams i).project p = Except.ok t) :
    computeJacobiansPointCov fv cams p lam dd = Except.ok (jacResult fv cams p,
      inv3 ((eStacked fv cams p)ᵀ * eStacked fv cams p +
        lam • dampingMatrix ((eStacked fv cams p)ᵀ * eStacked fv cams p) dd)) := by
  rw [computeJacobiansPointCov, computeJacobians_ok fv cams p h, okMap]
  rfl

theorem computeJacobians_cheirality (fv : FactorView m c) (cams : Fin m → Camera c)
    (p : Vec 3) (i : Fin m) (e : Cheirality) (he : (cams i).project p = Except.error e) :
    ∃ e', computeJacobians fv cams p = Except.error e' :=
  foldlM_genStep_error (projOf cams p) (jacUpd fv) (List.finRange m) i e
    (List.mem_finRange i) he _

theorem computeJacobiansPointCov_cheirality (fv : FactorView m c) (cams : Fin m → Camera c)
    (p : Vec 3) (lam : ℚ) (dd : Bool) (i : Fin m) (e : Cheirality)
    (he : (cams i).project p = Except.error e) :
    ∃ e', computeJacobiansPointCov fv cams p lam dd = Except.error e' := by
  obtain ⟨e', h'⟩ := computeJacobians_cheirality fv cams p i e he
  exact ⟨e', by rw [computeJacobiansPointCov, h']; rfl⟩

theorem reprojectionError_cheirality (fv : FactorView m c) (cams : Fin m → Camera c)
    (p : Vec 3) (i : Fin m) (e : Cheirality) (he : (cams i).project p = Except.error e) :
    ∃ e', reprojectionError fv cams p = Except.error e' :=
  foldlM_genStep_error (projOf cams p) (reprojUpd fv) (List.finRange m) i e
    (List.mem_finRange i) he _

theorem totalReprojectionError_cheirality (fv : FactorView m c) (cams : Fin m → Camera c)
    (p : Vec 3) (i : Fin m) (e : Cheirality) (he : (cams i).project p = Except.error e) :
    ∃ e', totalReprojectionError fv cams p = Except.error e' :=
  foldlM_genStep_error (projOf cams p) (totalErrUpd fv) (List.finRange m) i e
    (List.mem_finRange i) he _

theorem computeEP_cheirality (fv : FactorView m c) (cams : Fin m → Camera c)
    (p : Vec 3) (i : Fin m) (e : Cheirality) (he : (cams i).project p = Except.error e) :
    ∃ e', computeEP fv cams p = Except.error e' := by
  obtain ⟨e', h'⟩ := foldlM_genStep_error (projOf cams p) (epUpd fv) (List.finRange m) i e
    (List.mem_finRange i) he (Matrix.of fun _ _ => 0)
  exact ⟨e', by rw [computeEP, h']; rfl⟩

theorem projections_ok_of_pointCov_ok (fv : FactorView m c) (cams : Fin m → Camera c)
    (p : Vec 3) (lam : ℚ) (dd : Bool) (sp : JacState m c × Matrix (Fin 3) (Fin 3) ℚ)
    (hok : computeJacobiansPointCov fv cams p lam dd = Except.ok sp) :
    ∀ i : Fin m, ∃ t, (cams i).project p = Except.ok t := by
  intro i
  cases hpi : (cams i).project p with
  | ok t => exact ⟨t, rfl⟩
  | error e =>
    obtain ⟨e', h'⟩ := computeJacobiansPointCov_cheirality fv cams p lam dd i e hpi
    rw [h'] at hok
    cases hok

theorem projections_ok_of_jac_ok (fv : FactorView m c) (cams : Fin m → Camera c)
    (p : Vec 3) (s : JacState m c) (hok : computeJacobians fv cams p = Except.ok s) :
    ∀ i : Fin m, ∃ t, (cams i).project p = Except.ok t := by
  intro i
  cases hpi : (cams i).project p with
  | ok t => exact ⟨t, rfl⟩
  | error e =>
    obtain ⟨e', h'⟩ := computeJacobians_cheirality fv cams p i e hpi
    rw [h'] at hok
    cases hok

theorem jacResult_Fblocks_getD (fv : FactorView m c) (cams : Fin m → Camera c)
    (p : Vec 3) (i : Fin m) :
    (jacResult fv cams p).Fblocks.getD (i : ℕ) (0, 0) = fBlockAt fv cams p i := by
  rw [jacResult]
  simp [List.getD_eq_getElem?_getD, List.getElem?_map, List.getElem?_eq_getElem,
    List.length_finRange, i.isLt, List.getElem_finRange]

theorem createHessianFactor_ok (fv : FactorView m c) (cams : Fin m → Camera c)
    (p : Vec 3) (lam : ℚ) (dd : Bool)
    (h : ∀ i : Fin m, ∃ t, (cams i).project p = Except.ok t) :
    createHessianFactor fv cams p lam dd = Except.ok
      ⟨(List.finRange m).map fv.ks,
       (sparseSchurComplement (fBlockAt fv cams p) (eStacked fv cams p)
         (inv3 ((eStacked fv cams p)ᵀ * eStacked fv cams p +
           lam • dampingMatrix ((eStacked fv cams p)ᵀ * eStacked fv cams p) dd))
         (bStacked fv cams p)).1,
       (sparseSchurComplement (fBlockAt fv cams p) (eStacked fv cams p)
         (inv3 ((eStacked fv cams p)ᵀ * eStacked fv cams p +
           lam • dampingMatrix ((eStacked fv cams p)ᵀ * eStacked fv cams p) dd))
         (bStacked fv cams p)).2,
       fTotal fv cams p⟩ := by
  rw [createHessianFactor, computeJacobiansPointCov_ok fv cams p lam dd h, okMap]
  congr 1
  simp only [jacResult_Fblocks_getD]
  rfl

/-! ### The claims -/

/-- C1: for every factor and every consistent input (Fblocks, E, PointCov, b) with
m ≥ 1 measurements, the dense strategy `schurComplement` and the block strategy
`sparseSchurComplement` produce identical outputs: the same upper-triangular block
list Gs and the same gradient blocks gs. -/
theorem claim_C1_dense_sparse_schur_identical {m D : ℕ} (hm : 1 ≤ m)
    (Fb : Fin m → Key × Matrix (Fin 2) (Fin D) ℚ)
    (E : Matrix (Fin m × Fin 2) (Fin 3) ℚ) (P : Matrix (Fin 3) (Fin 3) ℚ)
    (b : (Fin m × Fin 2) → ℚ) :
    schurComplement Fb E P b = sparseSchurComplement Fb E P b :=
  schurComplement_eq_sparse Fb E P b

/-- Witness for C1 at a concrete one-measurement input. -/
theorem claim_C1_witness :
    (1 : ℕ) ≤ 1 ∧
    schurComplement (fun _ : Fin 1 => ((7 : Key),
        (Matrix.of fun _ _ => (1 : ℚ) : Matrix (Fin 2) (Fin 1) ℚ)))
      (Matrix.of fun _ _ => (1 : ℚ) : Matrix (Fin 1 × Fin 2) (Fin 3) ℚ) 1
      (fun _ => (1 : ℚ)) =
    sparseSchurComplement (fun _ : Fin 1 => ((7 : Key),
        (Matrix.of fun _ _ => (1 : ℚ) : Matrix (Fin 2) (Fin 1) ℚ)))
      (Matrix.of fun _ _ => (1 : ℚ) : Matrix (Fin 1 × Fin 2) (Fin 3) ℚ) 1
      (fun _ => (1 : ℚ)) :=
  ⟨le_rfl, claim_C1_dense_sparse_schur_identical le_rfl _ _ _ _⟩

/-- C2: the PointCov-returning computeJacobians returns
Q = (EᵀE + lambda · D_damp)⁻¹ with D_damp the identity when diagonalDamping is off and
diag(EᵀE) when it is on, and computeEP returns the same E together with
Q = (EᵀE)⁻¹, i.e. lambda = 0 and no damping term. -/
theorem claim_C2_pointcov_damping {m c : ℕ} (fv : FactorView m c)
    (cams : Fin m → Camera c) (p : Vec 3) (lam : ℚ) (dd : Bool) (s : JacState m c)
    (Q : Matrix (Fin 3) (Fin 3) ℚ)
    (hok : computeJacobiansPointCov fv cams p lam dd = Except.ok (s, Q)) :
    Q = (s.Eᵀ * s.E +
        lam • (if dd then Matrix.diagonal fun i => (s.Eᵀ * s.E) i i else 1))⁻¹ ∧
    computeEP fv cams p = Except.ok (s.E, (s.Eᵀ * s.E)⁻¹) := by
  have hproj := projections_ok_of_pointCov_ok fv cams p lam dd (s, Q) hok
  rw [computeJacobiansPointCov_ok fv cams p lam dd hproj] at hok
  injection hok with h2
  injection h2 with hs hQ
  subst hs
  constructor
  · rw [← hQ, inv3_eq_inv, dampingMatrix_eq]
    rfl
  · rw [computeEP_ok fv cams p hproj, inv3_eq_inv]
    rfl

/-- Witness for C2 at the concrete one-measurement fixture with lambda 1 and
diagonal damping on. -/
theorem claim_C2_witness :
    computeJacobiansPointCov fvW1 camsW1 pW1 1 true = Except.ok (sW1, qW1) ∧
    (qW1 = (sW1.Eᵀ * sW1.E +
        (1 : ℚ) • (if true then Matrix.diagonal fun i => (sW1.Eᵀ * sW1.E) i i else 1))⁻¹ ∧
      computeEP fvW1 camsW1 pW1 = Except.ok (sW1.E, (sW1.Eᵀ * sW1.E)⁻¹)) :=
  ⟨computeJacobiansPointCov_ok fvW1 camsW1 pW1 1 true (fun _ => ⟨_, rfl⟩),
   claim_C2_pointcov_damping fvW1 camsW1 pW1 1 true sW1 qW1
     (computeJacobiansPointCov_ok fvW1 camsW1 pW1 1 true (fun _ => ⟨_, rfl⟩))⟩

/-- C3: computeJacobians stores in rows 2i, 2i+1 of b the whitened negated raw
residual −(π(cam_i, p) − z_i), and returns f equal to the sum over i of the squared
norm of the whitened b_i. -/
theorem claim_C3_residual_sign_and_error {m c : ℕ} (fv : FactorView m c)
    (cams : Fin m → Camera c) (p : Vec 3) (s : JacState m c)
    (hok : computeJacobians fv cams p = Except.ok s) :
    (∀ i : Fin m, ∃ t : ProjOut c, (cams i).project p = Except.ok t ∧
      ∀ r : Fin 2, s.b (i, r) = (fv.W i).mulVec (fun q => -(t.pix q - fv.z i q)) r) ∧
    s.f = ∑ i : Fin m, sqNorm2 fun r => s.b (i, r) := by
  have hproj := projections_ok_of_jac_ok fv cams p s hok
  rw [computeJacobians_ok fv cams p hproj] at hok
  injection hok with h2
  subst h2
  constructor
  · intro i
    obtain ⟨t, ht⟩ := hproj i
    refine ⟨t, ht, fun r => ?_⟩
    show bStacked fv cams p (i, r) = _
    rw [bStacked, whitenedResidual,
      show projAt cams p i = t from by simp [projAt, projD, projOf, ht]]
  · show fTotal fv cams p = _
    rw [fTotal]
    exact Finset.sum_congr rfl fun i _ => rfl

/-- Witness for C3 at the concrete one-measurement fixture (pixel (3,5), z = 0). -/
theorem claim_C3_witness :
    computeJacobians fvW1 camsW1 pW1 = Except.ok sW1 ∧
    ((∀ i : Fin 1, ∃ t : ProjOut 0, (camsW1 i).project pW1 = Except.ok t ∧
      ∀ r : Fin 2, sW1.b (i, r) = (fvW1.W i).mulVec (fun q => -(t.pix q - fvW1.z i q)) r) ∧
      sW1.f = ∑ i : Fin 1, sqNorm2 fun r => sW1.b (i, r)) :=
  ⟨computeJacobians_ok fvW1 camsW1 pW1 (fun _ => ⟨_, rfl⟩),
   claim_C3_residual_sign_and_error fvW1 camsW1 pW1 sW1
     (computeJacobians_ok fvW1 camsW1 pW1 (fun _ => ⟨_, rfl⟩))⟩

/-- C5: createHessianFactor hands the optimizer exactly m(m+1)/2 Hessian blocks,
holding only the upper triangle in the packed block order
{G₀₀, G₀₁, …, G₀,m−1, G₁₁, …}, together with m gradient blocks matching the
measurement insertion order (and the keys in insertion order). -/
theorem claim_C5_hessian_factor_layout {m c : ℕ} (hm : 1 ≤ m) (fv : FactorView m c)
    (cams : Fin m → Camera c) (p : Vec 3) (lam : ℚ) (dd : Bool) (s : JacState m c)
    (P : Matrix (Fin 3) (Fin 3) ℚ)
    (hok : computeJacobiansPointCov fv cams p lam dd = Except.ok (s, P)) :
    ∃ hf : RegularHessianFactor (6 + c),
      createHessianFactor fv cams p lam dd = Except.ok hf ∧
      hf.Gs.length = m * (m + 1) / 2 ∧
      hf.gs.length = m ∧
      hf.keys = (List.finRange m).map fv.ks ∧
      (∀ i1 i2 : Fin m, i1 ≤ i2 →
        hf.Gs[triOffset m (i1 : ℕ) + ((i2 : ℕ) - (i1 : ℕ))]? =
          some (schurGBlock (fun j => (fBlockAt fv cams p j).2) s.E P i1 i2)) ∧
      (∀ i : Fin m, hf.gs[(i : ℕ)]? =
        some (schurGrad (fun j => (fBlockAt fv cams p j).2) s.E P s.b i)) := by
  have hproj := projections_ok_of_pointCov_ok fv cams p lam dd (s, P) hok
  rw [computeJacobiansPointCov_ok fv cams p lam dd hproj] at hok
  injection hok with h2
  injection h2 with hs hP
  subst hs
  refine ⟨⟨(List.finRange m).map fv.ks,
      (sparseSchurComplement (fBlockAt fv cams p) (eStacked fv cams p) P
        (bStacked fv cams p)).1,
      (sparseSchurComplement (fBlockAt fv cams p) (eStacked fv cams p) P
        (bStacked fv cams p)).2,
      fTotal fv cams p⟩, ?_, ?_, ?_, rfl, ?_, ?_⟩
  · rw [← hP]
    exact createHessianFactor_ok fv cams p lam dd hproj
  · exact sparse_Gs_length (fBlockAt fv cams p) (eStacked fv cams p) P (bStacked fv cams p)
  · exact sparse_gs_length (fBlockAt fv cams p) (eStacked fv cams p) P (bStacked fv cams p)
  · intro i1 i2 h12
    exact sparse_Gs_getElem (fBlockAt fv cams p) (eStacked fv cams p) P
      (bStacked fv cams p) i1 i2 h12
  · intro i
    exact sparse_gs_getElem (fBlockAt fv cams p) (eStacked fv cams p) P
      (bStacked fv cams p) i

/-- Witness for C5 at the concrete one-measurement fixture with lambda 0. -/
theorem claim_C5_witness :
    (1 : ℕ) ≤ 1 ∧
    computeJacobiansPointCov fvW1 camsW1 pW1 0 false = Except.ok (sW1, qW0) ∧
    (∃ hf : RegularHessianFactor (6 + 0),
      createHessianFactor fvW1 camsW1 pW1 0 false = Except.ok hf ∧
      hf.Gs.length = 1 * (1 + 1) / 2 ∧
      hf.gs.length = 1 ∧
      hf.keys = (List.finRange 1).map fvW1.ks ∧
      (∀ i1 i2 : Fin 1, i1 ≤ i2 →
        hf.Gs[triOffset 1 (i1 : ℕ) + ((i2 : ℕ) - (i1 : ℕ))]? =
          some (schurGBlock (fun j => (fBlockAt fvW1 camsW1 pW1 j).2) sW1.E qW0 i1 i2)) ∧
      (∀ i : Fin 1, hf.gs[(i : ℕ)]? =
        some (schurGrad (fun j => (fBlockAt fvW1 camsW1 pW1 j).2) sW1.E qW0 sW1.b i))) :=
  ⟨le_rfl, computeJacobiansPointCov_ok fvW1 camsW1 pW1 0 false (fun _ => ⟨_, rfl⟩),
   claim_C5_hessian_factor_layout le_rfl fvW1 camsW1 pW1 0 false sW1 qW0
     (computeJacobiansPointCov_ok fvW1 camsW1 pW1 0 false (fun _ => ⟨_, rfl⟩))⟩

/-- C7: a cheirality failure at any measurement aborts reprojectionError,
totalReprojectionError, computeEP and computeJacobians with the cheirality signal
(the reference terminates the process), rather than silently producing values. -/
theorem claim_C7_cheirality_aborts {m c : ℕ} (fv : FactorView m c)
    (cams : Fin m → Camera c) (p : Vec 3) (i : Fin m) (e : Cheirality)
    (he : (cams i).project p = Except.error e) :
    (∃ e1, reprojectionError fv cams p = Except.error e1) ∧
    (∃ e2, totalReprojectionError fv cams p = Except.error e2) ∧
    (∃ e3, computeEP fv cams p = Except.error e3) ∧
    (∃ e4, computeJacobians fv cams p = Except.error e4) :=
  ⟨reprojectionError_cheirality fv cams p i e he,
   totalReprojectionError_cheirality fv cams p i e he,
   computeEP_cheirality fv cams p i e he,
   computeJacobians_cheirality fv cams p i e he⟩

/-- Witness for C7 with a camera that signals cheirality. -/
theorem claim_C7_witness :
    ((fun _ : Fin 1 => camFail) 0).project pW1 = Except.error ⟨⟩ ∧
    ((∃ e1, reprojectionError fvW1 (fun _ => camFail) pW1 = Except.error e1) ∧
     (∃ e2, totalReprojectionError fvW1 (fun _ => camFail) pW1 = Except.error e2) ∧
     (∃ e3, computeEP fvW1 (fun _ => camFail) pW1 = Except.error e3) ∧
     (∃ e4, computeJacobians fvW1 (fun _ => camFail) pW1 = Except.error e4)) :=
  ⟨rfl, claim_C7_cheirality_aborts fvW1 (fun _ => camFail) pW1 0 ⟨⟩ rfl⟩

/-- Map fusion: computeJacobiansSVD is the base computeJacobians followed by the
pure extraction of (Fblocks, Enull, b, f); the point covariance is dropped. -/
theorem computeJacobiansSVD_eq_base {m c : ℕ} (svdU : SvdFullU m)
    (fv : FactorView m c) (cams : Fin m → Camera c) (p : Vec 3) (lam : ℚ) (dd : Bool) :
    computeJacobiansSVD svdU fv cams p lam dd =
      (computeJacobians fv cams p).map fun s =>
        ⟨s.Fblocks, enullOf (svdU s.E), s.b, s.f⟩ := by
  rw [computeJacobiansSVD, computeJacobiansPointCov]
  cases computeJacobians fv cams p with
  | error e => rfl
  | ok s => rfl

/-- C10: the outputs of computeJacobiansSVD are independent of the lambda and
diagonalDamping arguments: damping enters only the discarded point covariance. -/
theorem claim_C10_svd_damping_independent {m c : ℕ} (svdU : SvdFullU m)
    (fv : FactorView m c) (cams : Fin m → Camera c) (p : Vec 3)
    (lam1 lam2 : ℚ) (dd1 dd2 : Bool) :
    computeJacobiansSVD svdU fv cams p lam1 dd1 =
      computeJacobiansSVD svdU fv cams p lam2 dd2 := by
  rw [computeJacobiansSVD_eq_base, computeJacobiansSVD_eq_base]

/-- C4 (amended): the sensor offset body_P_sensor is stored at construction (and
participates in print, equals and serialization) but is not applied by the
projection members: reprojectionError uses the cameras exactly as passed — the
predicted pixel is π(c, p) — and the outputs of reprojectionError,
totalReprojectionError and computeJacobians do not depend on the stored offset.
Applying the offset is left to the caller constructing the camera set. -/
theorem claim_C4_body_P_sensor_not_applied {m c : ℕ} (fv : FactorView m c)
    (cams : Fin m → Camera c) (p : Vec 3)
    (h : ∀ i : Fin m, ∃ t, (cams i).project p = Except.ok t) (q : Option Pose3) :
    reprojectionError fv cams p =
      Except.ok (fun rc => (projAt cams p rc.1).pix rc.2 - fv.z rc.1 rc.2) ∧
    reprojectionError (setBps fv q) cams p = reprojectionError fv cams p ∧
    totalReprojectionError (setBps fv q) cams p = totalReprojectionError fv cams p ∧
    computeJacobians (setBps fv q) cams p = computeJacobians fv cams p :=
  ⟨reprojectionError_ok fv cams p h, rfl, rfl, rfl⟩

/-- Witness for the amended C4 at the concrete fixture. -/
theorem claim_C4_witness :
    (∀ i : Fin 1, ∃ t, (camsW1 i).project pW1 = Except.ok t) ∧
    (reprojectionError fvW1 camsW1 pW1 =
      Except.ok (fun rc => (projAt camsW1 pW1 rc.1).pix rc.2 - fvW1.z rc.1 rc.2) ∧
    reprojectionError (setBps fvW1 (some offW)) camsW1 pW1 =
      reprojectionError fvW1 camsW1 pW1 ∧
    totalReprojectionError (setBps fvW1 (some offW)) camsW1 pW1 =
      totalReprojectionError fvW1 camsW1 pW1 ∧
    computeJacobians (setBps fvW1 (some offW)) camsW1 pW1 =
      computeJacobians fvW1 camsW1 pW1) :=
  ⟨fun _ => ⟨_, rfl⟩,
   claim_C4_body_P_sensor_not_applied fvW1 camsW1 pW1 (fun _ => ⟨_, rfl⟩) (some offW)⟩

/-- Counterexample to C4 as stated: `fvW4` stores `body_P_sensor = offW`, yet
reprojectionError projects with the camera as passed — the run with the identity
pose camera returns the residual of π(c, p), and it differs from the residual of
π(c ∘ body_P_sensor, p) that the claim predicts (computed in the second run). -/
theorem claim_C4_counterexample :
    reprojectionError fvW4 (fun _ => poseCamera 0 Pose3.id) pW4 =
      Except.ok (fun _ => (0 : ℚ)) ∧
    reprojectionError fvW4 (fun _ => poseCamera 0 (Pose3.id.compose offW)) pW4 =
      Except.ok (fun _ => -(1 : ℚ) / 4) ∧
    ¬ ((fun _ : Fin 1 × Fin 2 => (0 : ℚ)) = fun _ : Fin 1 × Fin 2 => -(1 : ℚ) / 4) :=
  of_decide_eq_true (by with_unfolding_all exact rfl)

/-- C6 (amended): for m ≥ 2 measurements and any SVD factorization `E = U S Vᵀ` of
the whitened `E` satisfying the SVD contract, computeJacobiansSVD returns in Enull
the last 2m − 3 columns of U; these are always pairwise orthonormal and lie in the
kernel of Eᵀ, and — provided additionally that the first three singular values are
nonzero, i.e. the whitened `E` has full column rank 3 — they also span that kernel
and so form an orthonormal basis of it. The rank condition cannot be dropped: for a
degenerate camera set the kernel is larger than 2m − 3 dimensions and spanning
fails (see the counterexample below). -/
theorem claim_C6_enull_nullspace_basis {m c : ℕ} (hm : 2 ≤ m) (svdU : SvdFullU m)
    (fv : FactorView m c) (cams : Fin m → Camera c) (p : Vec 3) (lam : ℚ) (dd : Bool)
    (s : JacState m c) (out : SvdResult m c)
    (S : Matrix (Fin (2 * m)) (Fin 3) ℚ) (V : Matrix (Fin 3) (Fin 3) ℚ)
    (hbase : computeJacobians fv cams p = Except.ok s)
    (hok : computeJacobiansSVD svdU fv cams p lam dd = Except.ok out)
    (hU : (svdU s.E)ᵀ * svdU s.E = 1)
    (hV : Vᵀ * V = 1)
    (hE : s.E = svdU s.E * S * Vᵀ)
    (hS : ∀ (i : Fin (2 * m)) (j : Fin 3), (i : ℕ) ≠ (j : ℕ) → S i j = 0)
    (hrank : ∀ (j : Fin 3) (hj : (j : ℕ) < 2 * m), S ⟨(j : ℕ), hj⟩ j ≠ 0) :
    out.Enull = enullOf (svdU s.E) ∧
    (∀ k k' : Fin (2 * m - 3),
      (∑ rc : Fin m × Fin 2, out.Enull rc k * out.Enull rc k') =
        if k = k' then 1 else 0) ∧
    (∀ k, s.Eᵀ.mulVec (fun rc => out.Enull rc k) = 0) ∧
    (∀ v : (Fin m × Fin 2) → ℚ, s.Eᵀ.mulVec v = 0 →
      ∃ coef : Fin (2 * m - 3) → ℚ, v = fun rc => ∑ k, coef k * out.Enull rc k) := by
  rw [computeJacobiansSVD_eq_base, hbase, okMap] at hok
  injection hok with h2
  have hEn : out.Enull = enullOf (svdU s.E) := by rw [← h2]
  refine ⟨hEn, ?_, ?_, ?_⟩
  · intro k k'
    rw [hEn]
    exact enull_orthonormal (svdU s.E) hU k k'
  · intro k
    rw [hEn]
    exact enull_in_kernel (svdU s.E) S V s.E hU hE hS k
  · intro v hv
    rw [hEn]
    exact enull_spans hm (svdU s.E) S V s.E hU hV hE hS hrank v hv

/-- Witness for C6 at the concrete two-camera fixture, with the SVD oracle returning
the stacked-order identity. -/
theorem claim_C6_witness :
    (2 : ℕ) ≤ 2 ∧
    computeJacobians fvW2 camsW2 pW1 = Except.ok sW2 ∧
    computeJacobiansSVD (fun _ => uW) fvW2 camsW2 pW1 0 false = Except.ok outW2 ∧
    ((fun _ => uW : SvdFullU 2) sW2.E)ᵀ * (fun _ => uW : SvdFullU 2) sW2.E = 1 ∧
    ((1 : Matrix (Fin 3) (Fin 3) ℚ))ᵀ * 1 = 1 ∧
    sW2.E = (fun _ => uW : SvdFullU 2) sW2.E * sW * (1 : Matrix (Fin 3) (Fin 3) ℚ)ᵀ ∧
    (∀ (i : Fin (2 * 2)) (j : Fin 3), (i : ℕ) ≠ (j : ℕ) → sW i j = 0) ∧
    (∀ (j : Fin 3) (hj : (j : ℕ) < 2 * 2), sW ⟨(j : ℕ), hj⟩ j ≠ 0) ∧
    (outW2.Enull = enullOf ((fun _ => uW : SvdFullU 2) sW2.E) ∧
     (∀ k k' : Fin (2 * 2 - 3),
       (∑ rc : Fin 2 × Fin 2, outW2.Enull rc k * outW2.Enull rc k') =
         if k = k' then 1 else 0) ∧
     (∀ k, sW2.Eᵀ.mulVec (fun rc => outW2.Enull rc k) = 0) ∧
     (∀ v : (Fin 2 × Fin 2) → ℚ, sW2.Eᵀ.mulVec v = 0 →
       ∃ coef : Fin (2 * 2 - 3) → ℚ, v = fun rc => ∑ k, coef k * outW2.Enull rc k)) := by
  have hbase : computeJacobians fvW2 camsW2 pW1 = Except.ok sW2 :=
    computeJacobians_ok fvW2 camsW2 pW1 (fun _ => ⟨_, rfl⟩)
  have hok : computeJacobiansSVD (fun _ => uW) fvW2 camsW2 pW1 0 false = Except.ok outW2 := by
    rw [computeJacobiansSVD_eq_base, hbase, okMap]
    rfl
  have hU : ((fun _ => uW : SvdFullU 2) sW2.E)ᵀ * (fun _ => uW : SvdFullU 2) sW2.E = 1 :=
    of_decide_eq_true (by with_unfolding_all exact rfl)
  have hV : ((1 : Matrix (Fin 3) (Fin 3) ℚ))ᵀ * 1 = 1 :=
    of_decide_eq_true (by with_unfolding_all exact rfl)
  have hE : sW2.E = (fun _ => uW : SvdFullU 2) sW2.E * sW * (1 : Matrix (Fin 3) (Fin 3) ℚ)ᵀ :=
    of_decide_eq_true (by with_unfolding_all exact rfl)
  have hS : ∀ (i : Fin (2 * 2)) (j : Fin 3), (i : ℕ) ≠ (j : ℕ) → sW i j = 0 :=
    of_decide_eq_true (by with_unfolding_all exact rfl)
  have hrank : ∀ (j : Fin 3) (hj : (j : ℕ) < 2 * 2), sW ⟨(j : ℕ), hj⟩ j ≠ 0 := by
    intro j hj
    simp [sW]
  exact ⟨by norm_num, hbase, hok, hU, hV, hE, hS, hrank,
    claim_C6_enull_nullspace_basis (by norm_num) (fun _ => uW) fvW2 camsW2 pW1 0 false
      sW2 outW2 sW 1 hbase hok hU hV hE hS hrank⟩

/-- Counterexample to C6 as stated: the claim quantifies over every camera set with
no cheirality failure, but for the degenerate pair `camsD` — two cameras with
proportional point-Jacobian blocks, so the whitened `E` has rank 2 — it fails. The
oracle `uD` is an exact SVD of that `E` (`UᵀU = 1`, `E = U S Vᵀ` with `V = 1` and
`S` rectangular-diagonal), computeJacobiansSVD succeeds and returns the last
`2m − 3 = 1` column of `U` in `Enull`, yet the kernel of `Eᵀ` is 2-dimensional:
the vector `vD` lies in it and is not a linear combination of the columns of
`Enull`, so they are not a basis of the null space of `Eᵀ`. -/
theorem claim_C6_counterexample :
    computeJacobians fvW2 camsD pW1 = Except.ok sD2 ∧
    computeJacobiansSVD (fun _ => uD) fvW2 camsD pW1 0 false = Except.ok outD ∧
    uDᵀ * uD = 1 ∧
    ((1 : Matrix (Fin 3) (Fin 3) ℚ))ᵀ * 1 = 1 ∧
    sD2.E = uD * sD * ((1 : Matrix (Fin 3) (Fin 3) ℚ))ᵀ ∧
    (∀ (i : Fin (2 * 2)) (j : Fin 3), (i : ℕ) ≠ (j : ℕ) → sD i j = 0) ∧
    sD2.Eᵀ.mulVec vD = 0 ∧
    ¬ ∃ coef : Fin (2 * 2 - 3) → ℚ,
        vD = fun rc => ∑ k, coef k * outD.Enull rc k := by
  have hbase : computeJacobians fvW2 camsD pW1 = Except.ok sD2 :=
    computeJacobians_ok fvW2 camsD pW1 (fun _ => ⟨_, rfl⟩)
  refine ⟨hbase, ?_, ?_, ?_, ?_, ?_, ?_, ?_⟩
  · rw [computeJacobiansSVD_eq_base, hbase, okMap]
    rfl
  · exact of_decide_eq_true (by with_unfolding_all exact rfl)
  · exact of_decide_eq_true (by with_unfolding_all exact rfl)
  · exact of_decide_eq_true (by with_unfolding_all exact rfl)
  · exact of_decide_eq_true (by with_unfolding_all exact rfl)
  · exact of_decide_eq_true (by with_unfolding_all exact rfl)
  · rintro ⟨coef, h⟩
    have h0 := congrFun h (0, 0)
    have hz : ∀ k : Fin (2 * 2 - 3), outD.Enull (0, 0) k = 0 :=
      of_decide_eq_true (by with_unfolding_all exact rfl)
    simp only [hz, mul_zero, Finset.sum_const_zero] at h0
    have hnz : vD (0, 0) ≠ 0 := of_decide_eq_true (by with_unfolding_all exact rfl)
    exact hnz h0

/-- C8 (amended): a batch append fails exactly when the key array (or, for the
per-measurement-noise overload, the key or noise array) is shorter than the
measurement array — not whenever the lengths disagree; when no array is shorter,
the first |measurements| entries are pushed in lockstep, in order, and surplus keys
and noises are ignored. -/
theorem claim_C8_batch_append_lockstep {c : ℕ} (fac : SmartFactorBase c)
    (zs : List (Vec 2)) (ks : List Key) (ns : List NoiseModel) (n0 : NoiseModel) :
    (zs.length ≤ ks.length → zs.length ≤ ns.length →
      fac.addBatch zs ks ns = Except.ok ⟨fac.measured ++ zs,
        fac.noise ++ ns.take zs.length, fac.keys ++ ks.take zs.length,
        fac.body_P_sensor⟩) ∧
    (ks.length < zs.length ∨ ns.length < zs.length →
      ∃ fac', fac.addBatch zs ks ns = Except.error fac') ∧
    (zs.length ≤ ks.length →
      fac.addBatchShared zs ks n0 = Except.ok ⟨fac.measured ++ zs,
        fac.noise ++ List.replicate zs.length n0, fac.keys ++ ks.take zs.length,
        fac.body_P_sensor⟩) ∧
    (ks.length < zs.length →
      ∃ fac', fac.addBatchShared zs ks n0 = Except.error fac') :=
  ⟨fun hk hn => addBatch_ok fac zs ks ns hk hn,
   fun h => addBatch_fail fac zs ks ns h,
   fun hk => addBatchShared_ok fac zs ks n0 hk,
   fun hk => addBatchShared_fail fac zs ks n0 hk⟩

/-- Witness for the amended C8: a lockstep push of one measurement, and a failing
shared-noise append whose key array is shorter. -/
theorem claim_C8_witness :
    ((1 : ℕ) ≤ 1 ∧
      SmartFactorBase.addBatch (⟨[], [], [], none⟩ : SmartFactorBase 0)
        [fun _ => 0] [5] [1] =
        Except.ok ⟨[] ++ [fun _ => 0], [] ++ List.take 1 [1], [] ++ List.take 1 [5], none⟩) ∧
    ((0 : ℕ) < 1 ∧
      ∃ fac', SmartFactorBase.addBatchShared (⟨[], [], [], none⟩ : SmartFactorBase 0)
        [fun _ => 0] [] 1 = Except.error fac') :=
  ⟨⟨le_rfl, (claim_C8_batch_append_lockstep ⟨[], [], [], none⟩ [fun _ => 0] [5] [1] 1).1
      (by decide) (by decide)⟩,
   ⟨Nat.zero_lt_one, (claim_C8_batch_append_lockstep ⟨[], [], [], none⟩ [fun _ => 0] [] [] 1).2.2.2
      (by decide)⟩⟩

/-- Counterexample to C8 as stated: the measurement and key arrays have different
lengths (1 ≠ 2), yet the batch append succeeds — the surplus key is ignored rather
than the append failing. -/
theorem claim_C8_counterexample :
    SmartFactorBase.addBatch (⟨[], [], [], none⟩ : SmartFactorBase 0)
      [fun _ => 0] [5, 6] [1] =
      Except.ok ⟨[fun _ => 0], [1], [5], none⟩ ∧
    ([fun _ => (0 : ℚ)] : List (Vec 2)).length ≠ ([5, 6] : List Key).length :=
  of_decide_eq_true (by with_unfolding_all exact rfl)

/-- C9: the reference equals effectively compares only the first measurement — the
loop body carries an unconditional break. For any two factors with at least one
measurement each that agree on keys and sensor offset and whose first measurements
are equal within tol, equals returns true, whatever the later measurements hold. -/
theorem claim_C9_equals_first_measurement_only {c : ℕ} (f1 f2 : SmartFactorBase c)
    (tol : ℚ) (z1 z2 : Vec 2) (t1 t2 : List (Vec 2))
    (h1 : f1.measured = z1 :: t1) (h2 : f2.measured = z2 :: t2)
    (hz : point2Equals z1 z2 tol = true)
    (hk : f1.keys = f2.keys) (hb : f1.body_P_sensor = f2.body_P_sensor) :
    f1.equalsImpl f2 tol = Except.ok true := by
  rw [SmartFactorBase.equalsImpl, h1, h2]
  simp only [List.getElem?_cons_zero, okMap, hz, hk, hb]
  cases f2.body_P_sensor <;> simp [pose3Equals_self]

/-- Witness for C9: the two fixture factors differ in the second measurement, yet
equals returns true. -/
theorem claim_C9_witness :
    f9a.measured[1]? ≠ f9b.measured[1]? ∧
    f9a.equalsImpl f9b 1 = Except.ok true :=
  ⟨of_decide_eq_true (by with_unfolding_all exact rfl),
   claim_C9_equals_first_measurement_only f9a f9b 1 (fun _ => 1) (fun _ => 1)
     [fun _ => 2] [fun _ => 9] rfl rfl
     (of_decide_eq_true (by with_unfolding_all exact rfl)) rfl rfl⟩

end SmartFactor
